import Mathlib

/-!
StorageHelper, the directory scanner.

A shallow embedding of `src/filescanworker.cpp` (the work queue, `processBatch`,
`FileScanWorker::startScan`, `FileScanWorker::stop`) and of
`FileUtils::getFileType` from `src/fileutils.cpp`, followed by theorems about them.

Conventions of the embedding.

* `QString` is `String`; `qint64` is `Int`, and the one place where the source adds
  to a 64-bit counter (`totalProcessedSize += size`) wraps explicitly with `wrapInt64`.
* `QHash<QString, QString>` is an association list read from the front, so that an
  insertion at the front replaces an older value of the same key.
* The file system is an unchanging finite tree of `Node`s.  A directory that is
  missing or cannot be read enumerates no entries, i.e. it has no children.
* The external MIME database (`QMimeDatabase::mimeTypeForFile(path).name()`) is a
  parameter `mimeDb : String → String`.
* The worker pool is modelled in the configuration `maxThreads = 1`
  (`QThread::idealThreadCount() ≤ 2`): one worker, one queue, no queue to steal from.
  Its execution is a step function on `ScanState`; `stop` is a separate action that
  another thread may interleave between any two steps.
* `startScan` with any number of workers is the step function `parStep` on
  `ParState`: one step of one worker at a time, in any interleaving (a schedule),
  and the join that ends `startScan`; no cancellation.
* The protocol of the pool alone (the queues, stealing, and the counter
  `activeThreads`) is also modelled for any `maxThreads` as the step function `poolStep`
  on `PoolState`, one atomic action of one worker at a time, in any interleaving.
* `MainWindow::handleStartScan` of `src/mainwindow.cpp` is modelled by the arguments
  it passes to `startScan`; its `int` arithmetic wraps explicitly with `wrapInt32`.
-/

namespace StorageHelper

/-! ## Strings and Qt value types -/

/-- The characters after the last occurrence of `sep` (the whole input when `sep`
does not occur); `acc` holds the characters read since the last `sep`. -/
def lastSegment (sep : Char) : List Char → List Char → List Char
  | acc, [] => acc
  | acc, c :: cs => if c = sep then lastSegment sep [] cs else lastSegment sep (acc ++ [c]) cs

/-- The name of the file a path denotes, as `QFileInfo(path).fileName()` gives it:
what follows the last `/`. -/
def fileNameOf (path : String) : String := String.mk (lastSegment '/' [] path.data)

/-- The characters after the last `.`; `none` when there is no `.`. -/
def afterLastDot : Option (List Char) → List Char → Option (List Char)
  | acc, [] => acc
  | acc, c :: cs =>
    if c = '.' then afterLastDot (some []) cs else afterLastDot (acc.map (· ++ [c])) cs

/-- The suffix of a path, as `QFileInfo(path).suffix()` gives it: the characters of
the file name after its last `.`, empty when the name has none. -/
def suffixOf (path : String) : String :=
  match afterLastDot none (fileNameOf path).data with
  | none => ""
  | some cs => String.mk cs

/-- Lower-casing of a string, `QString::toLower()`, on the ASCII letters. -/
def toLower (s : String) : String := String.mk (s.data.map Char.toLower)

/-- The metadata `QDirIterator::fileInfo()` returns for an enumerated entry. -/
structure QFileInfo where
  filePath : String
  isDir : Bool
  size : Int
  lastModified : Nat
  lastRead : Nat
deriving DecidableEq

/-- The base name, `QFileInfo::fileName()`. -/
def QFileInfo.fileName (i : QFileInfo) : String := fileNameOf i.filePath

/-- The extension, `QFileInfo::suffix()`. -/
def QFileInfo.suffix (i : QFileInfo) : String := suffixOf i.filePath

/-- The record `FileInfo` of `filescanworker.h`. -/
structure FileInfo where
  path : String
  name : String
  size : Int
  lastModified : Nat
  lastAccessed : Nat
  fileType : String
  isDirectory : Bool
deriving DecidableEq

/-- A value of `QHash<QString, QString>`. -/
abbrev QHash := List (String × String)

/-- The value stored for a key, `QHash::find`. -/
def QHash.find (h : QHash) (key : String) : Option String :=
  match h with
  | [] => none
  | (k, v) :: rest => if k = key then some v else QHash.find rest key

/-- The table after `QHash::insert(key, value)`. -/
def QHash.insert (h : QHash) (key value : String) : QHash := (key, value) :: h

/-- Two's-complement wrap of an integer into the range of `qint64`. -/
def wrapInt64 (x : Int) : Int := (x + 2 ^ 63) % 2 ^ 64 - 2 ^ 63

/-! ## The file system -/

/-- A file-system object: a regular file, or a directory with its entries. Every
object carries its name, its own recorded size and its two time stamps. -/
inductive Node where
  | file (name : String) (size : Int) (lastModified lastRead : Nat)
  | dir (name : String) (size : Int) (lastModified lastRead : Nat) (children : List Node)

/-- One entry a `QDirIterator` yields: its metadata and, for a directory, the
entries the directory holds (what a later iterator opened on its path will see). -/
structure Entry where
  info : QFileInfo
  children : List Node

mutual
/-- The entries a recursive iterator yields for one object below `base`: the object,
then (for a directory) everything beneath it. -/
def entriesOfNode (base : String) : Node → List Entry
  | .file name size lm lr => [⟨⟨base ++ "/" ++ name, false, size, lm, lr⟩, []⟩]
  | .dir name size lm lr cs =>
    ⟨⟨base ++ "/" ++ name, true, size, lm, lr⟩, cs⟩ :: entriesOfForest (base ++ "/" ++ name) cs
/-- The sequence `QDirIterator(base, Files | Dirs | NoDotAndDotDot, Subdirectories)`
yields for a directory `base` holding `ns`: every object of the subtree, depth first. -/
def entriesOfForest (base : String) : List Node → List Entry
  | [] => []
  | n :: ns => entriesOfNode base n ++ entriesOfForest base ns
end

/-! ## WorkQueue -/

/-- The class `WorkQueue`: a `std::deque` of pending directories, front of the deque
first. In `startScan` an item is a directory path together with the directory the
path names in the tree. -/
structure WorkQueue (α : Type) where
  dirs : List α
deriving DecidableEq

/-- The method `WorkQueue::push`: `dirs.push_back(dir)`. -/
def WorkQueue.push {α : Type} (q : WorkQueue α) (dir : α) : WorkQueue α :=
  ⟨q.dirs ++ [dir]⟩

/-- The method `WorkQueue::pop`: on an empty deque `false` (here `none`), else
`dirs.front()` is returned and `dirs.pop_front()` removes it. -/
def WorkQueue.pop {α : Type} (q : WorkQueue α) : Option α × WorkQueue α :=
  match q.dirs with
  | [] => (none, q)
  | d :: rest => (some d, ⟨rest⟩)

/-- The method `WorkQueue::steal`: on an empty deque `false` (here `none`), else
`dirs.back()` is returned and `dirs.pop_back()` removes it. -/
def WorkQueue.steal {α : Type} (q : WorkQueue α) : Option α × WorkQueue α :=
  match q.dirs.getLast? with
  | none => (none, q)
  | some d => (some d, ⟨q.dirs.dropLast⟩)

/-! ## FileUtils::getFileType -/

/-- The static state of `fileutils.cpp`: the table `mimeTypeCache`, and a log of the
paths handed to the external MIME database so far, oldest first. -/
structure MimeState where
  mimeTypeCache : QHash
  lookups : List String
deriving DecidableEq

/-- The function `FileUtils::getFileType`: `"unknown"` for an empty extension, the
cached type on a hit, and otherwise one lookup in the MIME database whose answer is
stored under the extension. Returns the type and the new static state. -/
def getFileType (mimeDb : String → String) (path : String) (s : MimeState) :
    String × MimeState :=
  let ext := toLower (suffixOf path)
  if ext = "" then ("unknown", s)
  else
    match s.mimeTypeCache.find ext with
    | some t => (t, s)
    | none =>
      let mimeType := mimeDb path
      (mimeType, { mimeTypeCache := s.mimeTypeCache.insert ext mimeType,
                   lookups := s.lookups ++ [path] })

/-- A sequence of calls of `getFileType`, one after the other; the static state
after the last one. -/
def getFileTypeCalls (mimeDb : String → String) : List String → MimeState → MimeState
  | [], s => s
  | p :: ps, s => getFileTypeCalls mimeDb ps (getFileType mimeDb p s).2

/-! ## FileScanWorker::processBatch -/

/-- What `processBatch` reads and writes: the result accumulator `results`, the
per-worker `fileTypeCache`, the counter `totalProcessedSize`, and the static state of
`getFileType`. -/
structure BatchState where
  results : List FileInfo
  fileTypeCache : QHash
  totalProcessedSize : Int
  mime : MimeState
deriving DecidableEq

/-- The `FileInfo` that `processBatch` builds for a file that passes the filter. -/
def mkFileInfo (filePath : String) (fileInfo : QFileInfo) (fileType : String) : FileInfo :=
  { path := filePath, name := fileInfo.fileName, size := fileInfo.size,
    lastModified := fileInfo.lastModified, lastAccessed := fileInfo.lastRead,
    fileType := fileType, isDirectory := false }

/-- The body of the loop of `processBatch` for one pair of the batch. -/
def processEntry (mimeDb : String → String) (minimumSize : Int) (st : BatchState)
    (e : String × QFileInfo) : BatchState :=
  let size := e.2.size
  let st1 := { st with totalProcessedSize := wrapInt64 (st.totalProcessedSize + size) }
  if size ≥ minimumSize then
    let ext := toLower e.2.suffix
    match st1.fileTypeCache.find ext with
    | some t => { st1 with results := st1.results ++ [mkFileInfo e.1 e.2 t] }
    | none =>
      let r := getFileType mimeDb e.1 st1.mime
      { st1 with results := st1.results ++ [mkFileInfo e.1 e.2 r.1],
                 fileTypeCache := st1.fileTypeCache.insert ext r.1,
                 mime := r.2 }
  else st1

/-- The method `FileScanWorker::processBatch`. -/
def processBatch (mimeDb : String → String) (minimumSize : Int)
    (batch : List (String × QFileInfo)) (st : BatchState) : BatchState :=
  batch.foldl (processEntry mimeDb minimumSize) st

/-! ## The final sort and the progress value -/

/-- A comparison sort by the strict order `comp`, standing for `std::sort` (whose
order among equivalent elements is unspecified): insertion of each element before
the first one it must precede. -/
def insertByComp {α : Type} (comp : α → α → Bool) (x : α) : List α → List α
  | [] => [x]
  | y :: ys => if comp x y then x :: y :: ys else y :: insertByComp comp x ys

/-- The result of `std::sort(begin, end, comp)`. -/
def stdSort {α : Type} (comp : α → α → Bool) (l : List α) : List α :=
  l.foldr (insertByComp comp) []

/-- The sort at the end of `startScan`, with the comparator
`[](a, b) { return a.size > b.size; }`. -/
def sortResults (results : List FileInfo) : List FileInfo :=
  stdSort (fun a b => decide (a.size > b.size)) results

/-- The integer passed to `scanProgress`:
`static_cast<int>((processed >> 20) & 0x7FFFFFFF)`. The arithmetic shift is the
floor of the division by `2^20`, the mask is the remainder modulo `2^31`. -/
def progressValue (processed : Int) : Int := (processed / 2 ^ 20) % 2 ^ 31

/-! ## FileScanWorker::startScan and FileScanWorker::stop -/

/-- The signals of `FileScanWorker`. -/
inductive Event where
  | scanProgress (percentage : Int)
  | scanComplete (files : List FileInfo)
  | error (message : String)
deriving DecidableEq

/-- An item of the work queue: the path pushed, with the entries of the directory it
names. -/
structure WorkItem where
  path : String
  children : List Node

/-- Where the control of `startScan` stands.
* `invoked`: the slot has been called, nothing of its body has run;
* `loopHead`: the worker is about to test `while (!shouldStop)`;
* `enumerating it batch`: the worker is about to test
  `while (it.hasNext() && !shouldStop)`, with `it` the entries not yet yielded;
* `joined`: the worker has finished and `startScan` is about to test `if (!shouldStop)`;
* `sorting`: that test has passed; the sort and `emit scanComplete` are still to run;
* `returned`: `startScan` has returned. -/
inductive Pc where
  | invoked (directory : String) (root : List Node) (minSize : Int)
  | loopHead
  | enumerating (it : List Entry) (batch : List (String × QFileInfo))
  | joined
  | sorting
  | returned

/-- The state of a scan: the members `shouldStop` and `minimumSize`, the locals of
`startScan` (`workQueues[0]`, `activeThreads`, `results`), the locals of the worker
together with the shared counter (`worker`), and the signals emitted so far. -/
structure ScanState where
  pc : Pc
  shouldStop : Bool
  minimumSize : Int
  workQueue : WorkQueue WorkItem
  activeThreads : Int
  worker : BatchState
  results : List FileInfo
  events : List Event

/-- The method `FileScanWorker::stop`. -/
def stop (s : ScanState) : ScanState := { s with shouldStop := true }

/-- The end of one pass of the worker (lines 130 to 145): the rest of the batch is
processed, a full local buffer is merged into `results`, and the progress signal is
emitted; control returns to the head of the loop. -/
def afterEnumeration (mimeDb : String → String) (s : ScanState)
    (batch : List (String × QFileInfo)) : ScanState :=
  let w1 := if batch.isEmpty then s.worker else processBatch mimeDb s.minimumSize batch s.worker
  let merged := if w1.results.length ≥ 1000 then s.results ++ w1.results else s.results
  let w2 := if w1.results.length ≥ 1000 then { w1 with results := [] } else w1
  { s with pc := .loopHead, worker := w2, results := merged,
           events := s.events ++ [.scanProgress (progressValue w2.totalProcessedSize)] }

/-- The worker leaves its loop (lines 148 to 152): what is left in its local buffer
is appended to `results`; with one worker the join of line 163 follows at once. -/
def exitWorker (s : ScanState) : ScanState :=
  { s with pc := .joined,
           results := if s.worker.results.isEmpty then s.results
                      else s.results ++ s.worker.results }

/-- One step of `startScan`, from one test of `shouldStop` to the next. -/
def step (mimeDb : String → String) (s : ScanState) : ScanState :=
  match s.pc with
  | .invoked directory root minSize =>
    { s with pc := .loopHead, shouldStop := false, minimumSize := minSize,
             workQueue := (WorkQueue.mk []).push ⟨directory, root⟩,
             activeThreads := 1, results := [],
             worker := { results := [], fileTypeCache := [], totalProcessedSize := 0,
                         mime := s.worker.mime } }
  | .loopHead =>
    if s.shouldStop then exitWorker s
    else
      match s.workQueue.pop with
      | (some item, q) =>
        { s with pc := .enumerating (entriesOfForest item.path item.children) [],
                 workQueue := q }
      | (none, _) =>
        if s.activeThreads - 1 = 0 then exitWorker { s with activeThreads := s.activeThreads - 1 }
        else s
  | .enumerating [] batch => afterEnumeration mimeDb s batch
  | .enumerating (e :: rest) batch =>
    if s.shouldStop then afterEnumeration mimeDb s batch
    else if e.info.isDir then
      if e.info.size ≥ s.minimumSize then
        { s with pc := .enumerating rest batch,
                 workQueue := s.workQueue.push ⟨e.info.filePath, e.children⟩ }
      else { s with pc := .enumerating rest batch }
    else if (batch ++ [(e.info.filePath, e.info)]).length ≥ 100 then
      { s with pc := .enumerating rest [],
               worker := processBatch mimeDb s.minimumSize
                 (batch ++ [(e.info.filePath, e.info)]) s.worker }
    else { s with pc := .enumerating rest (batch ++ [(e.info.filePath, e.info)]) }
  | .joined => if s.shouldStop then { s with pc := .returned } else { s with pc := .sorting }
  | .sorting =>
    { s with pc := .returned, results := sortResults s.results,
             events := s.events ++ [.scanComplete (sortResults s.results)] }
  | .returned => s

/-- The state after `n` steps. -/
def run (mimeDb : String → String) : Nat → ScanState → ScanState
  | 0, s => s
  | n + 1, s => run mimeDb n (step mimeDb s)

mutual
/-- A bound on the steps an object of the tree costs: one when it is enumerated,
and for a directory the pass over it should it be queued, and the enumeration of
what it holds. -/
def nodeWeight : Node → Nat
  | .file .. => 1
  | .dir _ _ _ _ cs => 3 + forestWeight cs + forestWeight cs
/-- The sum of the weights of a list of objects. -/
def forestWeight : List Node → Nat
  | [] => 0
  | n :: ns => nodeWeight n + forestWeight ns
end

/-- A bound on the steps an enumerated entry costs. -/
def entryWeight (e : Entry) : Nat :=
  if e.info.isDir then 3 + forestWeight e.children else 1

/-- A bound on the steps a queued item costs: the head of the loop, the end of the
pass, and the entries of its subtree. -/
def itemWeight (w : WorkItem) : Nat := 2 + forestWeight w.children

/-- A bound on the number of steps left until `startScan` returns. -/
def stepsLeft (s : ScanState) : Nat :=
  match s.pc with
  | .invoked _ root _ => 6 + forestWeight root
  | .loopHead => 3 + (s.workQueue.dirs.map itemWeight).sum
  | .enumerating it _ => 4 + (s.workQueue.dirs.map itemWeight).sum + (it.map entryWeight).sum
  | .joined => 2
  | .sorting => 1
  | .returned => 0

/-- The state in which the slot `startScan(directory, minSize)` has just been
called on a worker whose flag is clear, with `mime` the static state of
`getFileType`; `root` holds the entries of `directory`. -/
def invokedState (root : List Node) (directory : String) (minSize : Int)
    (mime : MimeState) : ScanState :=
  { pc := .invoked directory root minSize, shouldStop := false, minimumSize := 0,
    workQueue := ⟨[]⟩, activeThreads := 0,
    worker := { results := [], fileTypeCache := [], totalProcessedSize := 0, mime := mime },
    results := [], events := [] }

/-- The method `FileScanWorker::startScan`, run without a call of `stop`: the state
in which it returns. -/
def startScan (mimeDb : String → String) (root : List Node) (directory : String)
    (minSize : Int) (mime : MimeState) : ScanState :=
  run mimeDb (stepsLeft (invokedState root directory minSize mime))
    (invokedState root directory minSize mime)

/-- Whether the signal `scanComplete` is among the events. -/
def emitsComplete (events : List Event) : Bool :=
  events.any fun e => match e with
    | .scanComplete _ => true
    | _ => false

/-- Whether the signal `scanProgress` is among the events. -/
def emitsProgress (events : List Event) : Bool :=
  events.any fun e => match e with
    | .scanProgress _ => true
    | _ => false

/-- Whether the signal `error` is among the events. -/
def emitsError (events : List Event) : Bool :=
  events.any fun e => match e with
    | .error _ => true
    | _ => false

/-- The list passed to `scanComplete`, when the signal was emitted. -/
def completedFiles : List Event → Option (List FileInfo)
  | [] => none
  | .scanComplete files :: _ => some files
  | _ :: rest => completedFiles rest

/-- Whether `shouldStop` has been reset by this call of `startScan` and the test
`if (!shouldStop)` that guards `emit scanComplete` is still to come. -/
def beforeFinalTest (s : ScanState) : Bool :=
  match s.pc with
  | .loopHead => true
  | .enumerating _ _ => true
  | .joined => true
  | _ => false

/-- Whether `startScan` has been called and has not returned. -/
def scanning (s : ScanState) : Bool :=
  match s.pc with
  | .returned => false
  | _ => true

/-- The regular files of a subtree, with the paths the iterator gives them. -/
def regularFiles (base : String) (ns : List Node) : List QFileInfo :=
  ((entriesOfForest base ns).filter fun e => !e.info.isDir).map (·.info)

/-- The signal `scanComplete` has not been emitted while the scan is under way. -/
def NoCompleteYet (s : ScanState) : Prop :=
  scanning s = true → emitsComplete s.events = false

/-- No call of `stop` has taken effect: past the reset of line 45 the flag is clear,
and a scan that has returned has emitted `scanComplete` with a sorted list last. -/
def Uncancelled (s : ScanState) : Prop :=
  (match s.pc with
    | .invoked _ _ _ => True
    | _ => s.shouldStop = false) ∧
  (scanning s = false →
    ∃ merged, s.events.getLast? = some (.scanComplete (sortResults merged)))

/-- A call of `stop` has taken effect in time: the flag is set, `scanComplete` has
not been emitted, and the final test is still to come or the scan has returned. -/
def Cancelled (s : ScanState) : Prop :=
  s.shouldStop = true ∧ emitsComplete s.events = false ∧
  (beforeFinalTest s = true ∨ scanning s = false)

/-- A bound on the steps a cancelled scan still takes. -/
def cancelRank (s : ScanState) : Nat :=
  match s.pc with
  | .enumerating _ _ => 3
  | .loopHead => 2
  | .joined => 1
  | .returned => 0
  | _ => 3

/-- With one worker the counter `activeThreads` is 1 whenever the worker is in its
loop. -/
def SingleWorker (s : ScanState) : Prop :=
  match s.pc with
  | .loopHead => s.activeThreads = 1
  | .enumerating _ _ => s.activeThreads = 1
  | _ => True

/-! ## Sample inputs -/

/-- A MIME database that answers by path: two files of one extension get two types. -/
def sampleMimeDb : String → String :=
  fun p => if p = "/r/a.TXT" then "text/plain" else "application/octet-stream"

/-- A batch of two files, of 500 and of 2,000,000 bytes. -/
def sampleBatch : List (String × QFileInfo) :=
  [("/r/a.txt", ⟨"/r/a.txt", false, 500, 0, 0⟩),
   ("/r/b/c.bin", ⟨"/r/b/c.bin", false, 2000000, 0, 0⟩)]

/-- An accumulator that already holds one file of 3,000,000 bytes, with the counter
at 3,000,000. -/
def sampleBatchState : BatchState :=
  { results := [⟨"/r/z.iso", "z.iso", 3000000, 0, 0, "application/octet-stream", false⟩],
    fileTypeCache := [("iso", "application/octet-stream")],
    totalProcessedSize := 3000000,
    mime := ⟨[("iso", "application/octet-stream")], ["/r/z.iso"]⟩ }

/-- A root holding the file `a.txt` and the directory `b` with the file `c.bin`. -/
def sampleTree : List Node :=
  [Node.file "a.txt" 500 0 0, Node.dir "b" 4096 0 0 [Node.file "c.bin" 2000000 0 0]]

/-! ## MainWindow::handleStartScan -/

/-- Two's-complement wrap of an integer into the range of a 32-bit `int`. -/
def wrapInt32 (x : Int) : Int := (x + 2 ^ 31) % 2 ^ 32 - 2 ^ 31

/-- The arguments `MainWindow::handleStartScan` passes to `startScan`, `none` when
it returns at once because no directory is selected. `currentText` is the text of
`sizeFilterCombo` and `value` the `int` that `minSizeSpinBox->value()` returns; the
product `value * 1024 * 1024` is formed from left to right in `int` and only its
result is widened to `qint64`. -/
def handleStartScan (currentDirectory currentText : String) (value : Int) :
    Option (String × Int) :=
  if currentDirectory = "" then none
  else if currentText = "Larger than..." then
    some (currentDirectory, wrapInt32 (wrapInt32 (value * 1024) * 1024))
  else some (currentDirectory, 0)

/-- Where one worker of the pool stands in `scanFunction`, between two of its atomic
actions on the shared queues and the shared counter.
* `loopHead`: about to pop its own queue (line 82);
* `stealing i`: its own queue was empty; about to run the body of the loop of line 86
  with loop variable `i`;
* `noWork`: no queue gave work; about to run `--activeThreads` (line 94);
* `yielding`: the decrement did not reach zero; about to run `++activeThreads`;
* `enumerating`: holds a claimed directory and is walking it (lines 100 to 145);
* `exited`: has left its loop because the decrement reached zero. -/
inductive WorkerPc where
  | loopHead
  | stealing (i : Nat)
  | noWork
  | yielding
  | enumerating
  | exited
deriving DecidableEq

/-- The shared state of the pool and the position of every worker: `workQueues[t]`
and the position of worker `t` for each thread id `t`, and the counter
`activeThreads`. -/
structure PoolState where
  workQueues : Nat → WorkQueue String
  activeThreads : Int
  workers : Nat → WorkerPc

/-- An atomic action of the pool.
* `advance t`: worker `t` performs its next action outside an enumeration (pop,
  steal, decrement or increment);
* `push t filePath`: worker `t`, enumerating, meets a subdirectory it queues and
  pushes it onto its own queue (line 116);
* `endOfPass t`: worker `t` finishes the enumeration of its claimed directory and
  returns to the head of its loop. -/
inductive PoolAction where
  | advance (threadId : Nat)
  | push (threadId : Nat) (filePath : String)
  | endOfPass (threadId : Nat)

/-- The pool as `startScan` sets it up: `maxThreads` empty queues, the root directory
pushed on queue 0, the counter at `maxThreads`, every worker at the head of its loop. -/
def poolInit (maxThreads : Nat) (directory : String) : PoolState :=
  { workQueues := Function.update (fun _ => WorkQueue.mk [])
      0 ((WorkQueue.mk []).push directory),
    activeThreads := maxThreads,
    workers := fun _ => .loopHead }

/-- The effect of one atomic action (no cancellation: `shouldStop` stays false). An
action of a thread id that is not in the pool, or that the worker cannot perform
where it stands, leaves the state as it is. -/
def poolStep (maxThreads : Nat) (s : PoolState) : PoolAction → PoolState
  | .advance t =>
    if t < maxThreads then
      match s.workers t with
      | .loopHead =>
        match (s.workQueues t).pop with
        | (some _, q) =>
          { s with workQueues := Function.update s.workQueues t q,
                   workers := Function.update s.workers t .enumerating }
        | (none, _) => { s with workers := Function.update s.workers t (.stealing 0) }
      | .stealing i =>
        if i < maxThreads then
          if i ≠ t then
            match (s.workQueues i).steal with
            | (some _, q) =>
              { s with workQueues := Function.update s.workQueues i q,
                       workers := Function.update s.workers t .enumerating }
            | (none, _) =>
              { s with workers := Function.update s.workers t (.stealing (i + 1)) }
          else { s with workers := Function.update s.workers t (.stealing (i + 1)) }
        else { s with workers := Function.update s.workers t .noWork }
      | .noWork =>
        if s.activeThreads - 1 = 0 then
          { s with activeThreads := s.activeThreads - 1,
                   workers := Function.update s.workers t .exited }
        else
          { s with activeThreads := s.activeThreads - 1,
                   workers := Function.update s.workers t .yielding }
      | .yielding =>
        { s with activeThreads := s.activeThreads + 1,
                 workers := Function.update s.workers t .loopHead }
      | .enumerating => s
      | .exited => s
    else s
  | .push t filePath =>
    if t < maxThreads ∧ s.workers t = .enumerating then
      { s with workQueues := Function.update s.workQueues t ((s.workQueues t).push filePath) }
    else s
  | .endOfPass t =>
    if t < maxThreads ∧ s.workers t = .enumerating then
      { s with workers := Function.update s.workers t .loopHead }
    else s

/-- The state of the pool after a sequence of atomic actions. -/
def poolRun (maxThreads : Nat) (actions : List PoolAction) (s : PoolState) : PoolState :=
  actions.foldl (poolStep maxThreads) s

/-- What a worker contributes to `activeThreads`: 0 once it has decremented the
counter and not incremented it again, 1 otherwise. -/
def WorkerPc.counted : WorkerPc → Int
  | .yielding => 0
  | .exited => 0
  | _ => 1

/-- Whether the worker has found its own queue empty and has not claimed a
directory since. -/
def WorkerPc.sawOwnQueueEmpty : WorkerPc → Bool
  | .stealing _ => true
  | .noWork => true
  | .yielding => true
  | .exited => true
  | _ => false

/-- The invariant of the pool: the counter is the number of workers that have not
decremented it, and the queue of a worker that found it empty is still empty (only
its owner pushes to a queue, and only while enumerating). -/
def PoolInv (maxThreads : Nat) (s : PoolState) : Prop :=
  s.activeThreads = ∑ t ∈ Finset.range maxThreads, (s.workers t).counted ∧
  ∀ t, t < maxThreads → (s.workers t).sawOwnQueueEmpty = true → (s.workQueues t).dirs = []

/-- A run of two workers: worker 0 claims the root and pushes one subdirectory,
while worker 1 finds its own queue and queue 0 empty and gives up looking. -/
def poolSampleActions : List PoolAction :=
  [.advance 0, .advance 1, .advance 1, .advance 1, .advance 1, .push 0 "/r/b"]

/-! ## startScan with any number of workers -/

/-- The number of workers `startScan` runs:
`std::max(1, QThread::idealThreadCount() - 1)`. -/
def maxThreadsOf (idealThreadCount : Int) : Nat := (max 1 (idealThreadCount - 1)).toNat

/-- Where one worker stands in `scanFunction`, with the locals of its current pass.
* `loopHead`: about to pop its own queue (line 82);
* `stealing i`: its own queue was empty; about to run the body of the loop of line 86
  with loop variable `i`;
* `noWork`: no queue gave work; about to run `--activeThreads` (line 94);
* `yielding`: the decrement did not reach zero; about to run `++activeThreads`;
* `enumerating it batch`: walking a claimed directory, `it` the entries not yet
  yielded and `batch` the files gathered since the last call of `processBatch`;
* `leaving`: the decrement reached zero and the loop is left; about to submit what
  its local buffer holds (lines 148 to 152);
* `exited`: `scanFunction` has returned. -/
inductive ScanPc where
  | loopHead
  | stealing (i : Nat)
  | noWork
  | yielding
  | enumerating (it : List Entry) (batch : List (String × QFileInfo))
  | leaving
  | exited

/-- One worker: its position and its locals `threadResults` and `fileTypeCache`. -/
structure ScanWorker where
  pc : ScanPc
  threadResults : List FileInfo
  fileTypeCache : QHash

/-- The state of a scan run by a pool: the queues and the worker of every thread id,
the shared `activeThreads`, `results` and `totalProcessedSize`, the static state of
`getFileType`, the signals emitted so far, and whether `startScan` has returned. -/
structure ParState where
  workQueues : Nat → WorkQueue WorkItem
  activeThreads : Int
  workers : Nat → ScanWorker
  results : List FileInfo
  totalProcessedSize : Int
  mime : MimeState
  events : List Event
  returned : Bool

/-- An action of the scan: worker `threadId` takes its next step, or the thread that
runs `startScan` finds every future finished, sorts and emits `scanComplete`. -/
inductive ScanAction where
  | worker (threadId : Nat)
  | join

/-- The scan as `startScan` sets it up (lines 45 to 66) before the workers start. -/
def parInit (maxThreads : Nat) (root : List Node) (directory : String)
    (mime : MimeState) : ParState :=
  { workQueues := Function.update (fun _ => WorkQueue.mk [])
      0 ((WorkQueue.mk []).push ⟨directory, root⟩),
    activeThreads := maxThreads,
    workers := fun _ => ⟨.loopHead, [], []⟩,
    results := [], totalProcessedSize := 0, mime := mime, events := [], returned := false }

/-- Whether every worker of the pool has returned from `scanFunction`. -/
def allExited (maxThreads : Nat) (s : ParState) : Bool :=
  (List.range maxThreads).all fun t =>
    match (s.workers t).pc with
    | .exited => true
    | _ => false

/-- The call `processBatch(batch, threadResults, fileTypeCache, totalProcessedSize)`
made by worker `t`. -/
def workerBatch (mimeDb : String → String) (minimumSize : Int) (s : ParState) (t : Nat)
    (batch : List (String × QFileInfo)) : BatchState :=
  processBatch mimeDb minimumSize batch
    { results := (s.workers t).threadResults, fileTypeCache := (s.workers t).fileTypeCache,
      totalProcessedSize := s.totalProcessedSize, mime := s.mime }

/-- The end of a pass of worker `t` (lines 130 to 145), as `afterEnumeration`. -/
def endOfPass (mimeDb : String → String) (minimumSize : Int) (s : ParState) (t : Nat)
    (batch : List (String × QFileInfo)) : ParState :=
  let b := if batch.isEmpty then
      { results := (s.workers t).threadResults, fileTypeCache := (s.workers t).fileTypeCache,
        totalProcessedSize := s.totalProcessedSize, mime := s.mime }
    else workerBatch mimeDb minimumSize s t batch
  { s with
    results := if b.results.length ≥ 1000 then s.results ++ b.results else s.results,
    totalProcessedSize := b.totalProcessedSize,
    mime := b.mime,
    workers := Function.update s.workers t
      { pc := .loopHead,
        threadResults := if b.results.length ≥ 1000 then [] else b.results,
        fileTypeCache := b.fileTypeCache },
    events := s.events ++ [.scanProgress (progressValue b.totalProcessedSize)] }

/-- The worker `t` with a new position and its locals unchanged. -/
def ParState.moveWorker (s : ParState) (t : Nat) (pc : ScanPc) : ParState :=
  { s with workers := Function.update s.workers t { (s.workers t) with pc := pc } }

/-- One step of the scan without cancellation (`shouldStop` stays false): a step of
one worker, from one access to shared state to the next, or the end of `startScan`
(lines 161 to 174). An action that is not possible leaves the state as it is. -/
def parStep (mimeDb : String → String) (maxThreads : Nat) (minimumSize : Int)
    (s : ParState) : ScanAction → ParState
  | .worker t =>
    if t < maxThreads then
      match (s.workers t).pc with
      | .loopHead =>
        match (s.workQueues t).pop with
        | (some item, q) =>
          { s.moveWorker t (.enumerating (entriesOfForest item.path item.children) []) with
            workQueues := Function.update s.workQueues t q }
        | (none, _) => s.moveWorker t (.stealing 0)
      | .stealing i =>
        if i < maxThreads then
          if i ≠ t then
            match (s.workQueues i).steal with
            | (some item, q) =>
              { s.moveWorker t (.enumerating (entriesOfForest item.path item.children) []) with
                workQueues := Function.update s.workQueues i q }
            | (none, _) => s.moveWorker t (.stealing (i + 1))
          else s.moveWorker t (.stealing (i + 1))
        else s.moveWorker t .noWork
      | .noWork =>
        if s.activeThreads - 1 = 0 then
          { s.moveWorker t .leaving with activeThreads := s.activeThreads - 1 }
        else { s.moveWorker t .yielding with activeThreads := s.activeThreads - 1 }
      | .yielding => { s.moveWorker t .loopHead with activeThreads := s.activeThreads + 1 }
      | .enumerating [] batch => endOfPass mimeDb minimumSize s t batch
      | .enumerating (e :: rest) batch =>
        if e.info.isDir then
          if e.info.size ≥ minimumSize then
            { s.moveWorker t (.enumerating rest batch) with
              workQueues := Function.update s.workQueues t
                ((s.workQueues t).push ⟨e.info.filePath, e.children⟩) }
          else s.moveWorker t (.enumerating rest batch)
        else if (batch ++ [(e.info.filePath, e.info)]).length ≥ 100 then
          { s with
            totalProcessedSize := (workerBatch mimeDb minimumSize s t
              (batch ++ [(e.info.filePath, e.info)])).totalProcessedSize,
            mime := (workerBatch mimeDb minimumSize s t
              (batch ++ [(e.info.filePath, e.info)])).mime,
            workers := Function.update s.workers t
              { pc := .enumerating rest [],
                threadResults := (workerBatch mimeDb minimumSize s t
                  (batch ++ [(e.info.filePath, e.info)])).results,
                fileTypeCache := (workerBatch mimeDb minimumSize s t
                  (batch ++ [(e.info.filePath, e.info)])).fileTypeCache } }
        else s.moveWorker t (.enumerating rest (batch ++ [(e.info.filePath, e.info)]))
      | .leaving =>
        { s.moveWorker t .exited with
          results := if (s.workers t).threadResults.isEmpty then s.results
                     else s.results ++ (s.workers t).threadResults }
      | .exited => s
    else s
  | .join =>
    if s.returned = false ∧ allExited maxThreads s = true then
      { s with results := sortResults s.results,
               events := s.events ++ [.scanComplete (sortResults s.results)],
               returned := true }
    else s

/-- The state of the scan after a schedule, a sequence of actions. -/
def parRun (mimeDb : String → String) (maxThreads : Nat) (minimumSize : Int)
    (schedule : List ScanAction) (s : ParState) : ParState :=
  schedule.foldl (parStep mimeDb maxThreads minimumSize) s

/-- Whether the worker has found its own queue empty and has not claimed a
directory since. -/
def ScanPc.ownQueueSeenEmpty : ScanPc → Bool
  | .stealing _ => true
  | .noWork => true
  | .yielding => true
  | .leaving => true
  | .exited => true
  | _ => false

/-- No directory among the entries has a recorded size of `minimumSize` or more, so
that none of them is pushed onto a queue. -/
def quietEntries (minimumSize : Int) (es : List Entry) : Prop :=
  ∀ e ∈ es, e.info.isDir = true → e.info.size < minimumSize

/-- The files among the entries, as the pairs the worker puts into its batch. -/
def filesOf (it : List Entry) : List (String × QFileInfo) :=
  (it.filter fun e => !e.info.isDir).map fun e => (e.info.filePath, e.info)

/-- The number of pairs of a batch that pass the size filter and whose record
satisfies `p`. -/
def qualCount (minimumSize : Int) (p : FileInfo → Bool)
    (batch : List (String × QFileInfo)) : Nat :=
  (batch.filter fun e => decide (e.2.size ≥ minimumSize)).countP
    fun e => p (mkFileInfo e.1 e.2 "")

/-- The records satisfying `p` that a worker holds or is still to produce in its
current pass; nothing once it has submitted its buffer and returned. -/
def workerCount (minimumSize : Int) (p : FileInfo → Bool) (w : ScanWorker) : Nat :=
  match w.pc with
  | .exited => 0
  | .enumerating it batch =>
    w.threadResults.countP p + qualCount minimumSize p batch
      + qualCount minimumSize p (filesOf it)
  | _ => w.threadResults.countP p

/-- The records satisfying `p` that the passes over the queued directories will
produce. -/
def queueCount (minimumSize : Int) (p : FileInfo → Bool) (q : WorkQueue WorkItem) : Nat :=
  (q.dirs.map fun item =>
    qualCount minimumSize p (filesOf (entriesOfForest item.path item.children))).sum

/-- The records satisfying `p` in `results`, held by the workers, and still to come
from the queues. -/
def pending (maxThreads : Nat) (minimumSize : Int) (p : FileInfo → Bool)
    (s : ParState) : Nat :=
  s.results.countP p
    + ∑ t ∈ Finset.range maxThreads, workerCount minimumSize p (s.workers t)
    + ∑ t ∈ Finset.range maxThreads, queueCount minimumSize p (s.workQueues t)

/-- The invariant of a scan in which no directory is ever queued: a worker that saw
its own queue empty still has an empty queue, no queued or enumerated directory
qualifies for the queue, and the number of pending records satisfying `p` is `c`. -/
def ScanInv (maxThreads : Nat) (minimumSize : Int) (p : FileInfo → Bool) (c : Nat)
    (s : ParState) : Prop :=
  (∀ t, (s.workers t).pc.ownQueueSeenEmpty = true → (s.workQueues t).dirs = []) ∧
  (∀ t, ∀ item ∈ (s.workQueues t).dirs,
    quietEntries minimumSize (entriesOfForest item.path item.children)) ∧
  (∀ t it batch, (s.workers t).pc = .enumerating it batch → quietEntries minimumSize it) ∧
  pending maxThreads minimumSize p s = c

/-- What the signals say about the end of `startScan`: before it has returned no
`scanComplete` has been emitted, after it the one emitted carries `results`, and
every worker has exited. -/
def JoinInv (maxThreads : Nat) (s : ParState) : Prop :=
  (s.returned = false → emitsComplete s.events = false) ∧
  (s.returned = true →
    completedFiles s.events = some s.results ∧ allExited maxThreads s = true)

/-- C8 (as stated, refuted): on the queue holding "a", `pop` after `push "b"` returns
"a", the oldest item, and leaves "b" queued; it does not return "b" and leave the
previous contents. -/
theorem pop_after_push_not_lifo :
    ((WorkQueue.mk ["a"]).push "b").pop = (some "a", WorkQueue.mk ["b"]) ∧
    ((WorkQueue.mk ["a"]).push "b").pop ≠ (some "b", WorkQueue.mk ["a"]) := by
  decide

/-- C8 (amended): `pop` removes and returns the item at the head of the queue, the
oldest one still queued (FIFO with respect to `push`); so `pop` after `push p`
returns `p` only on an empty queue, and on a queue with head `d` it returns `d` and
leaves the rest followed by `p`. -/
theorem pop_returns_head {α : Type} (d p : α) (rest : List α) :
    (WorkQueue.mk (d :: rest)).pop = (some d, WorkQueue.mk rest) ∧
    ((WorkQueue.mk (d :: rest)).push p).pop = (some d, WorkQueue.mk (rest ++ [p])) ∧
    ((WorkQueue.mk ([] : List α)).push p).pop = (some p, WorkQueue.mk []) := by
  refine ⟨rfl, rfl, rfl⟩

/-- C9 (as stated, refuted): on the queue holding "a" then "b", `steal` returns "b",
the item pushed last, and leaves "a"; it does not return the head "a". -/
theorem steal_not_fifo :
    (((WorkQueue.mk []).push "a").push "b").steal = (some "b", WorkQueue.mk ["a"]) ∧
    (((WorkQueue.mk []).push "a").push "b").steal ≠ (some "a", WorkQueue.mk ["b"]) := by
  decide

/-- C9 (amended): `steal` removes and returns the item at the tail of the queue, the
one `push` appended last (the same end `push` appends to, opposite to `pop`); on an
empty queue it returns the empty result and leaves the queue unchanged. -/
theorem steal_returns_tail {α : Type} (q : WorkQueue α) (d : α) :
    (q.push d).steal = (some d, q) ∧
    (WorkQueue.mk ([] : List α)).steal = (none, WorkQueue.mk []) := by
  constructor
  · simp [WorkQueue.push, WorkQueue.steal]
  · rfl

/-! ## Theorems: the progress value -/

/-- C6 (as stated, refuted): after 101 MiB have been processed the integer emitted
with `scanProgress` is 101, which is not in the range 0 to 100. -/
theorem progressValue_exceeds_100 :
    progressValue (101 * 2 ^ 20) = 101 ∧
    ¬ (0 ≤ progressValue (101 * 2 ^ 20) ∧ progressValue (101 * 2 ^ 20) ≤ 100) := by
  decide

/-- C6 (amended): for every value of the processed-byte counter from 0 to 2^63 - 1
the integer emitted with `scanProgress` lies between 0 and 2^31 - 1, and while fewer
than 2^51 bytes have been processed it is the number of whole MiB processed. -/
theorem progressValue_range (processed : Int) (h0 : 0 ≤ processed)
    (h1 : processed < 2 ^ 63) :
    0 ≤ progressValue processed ∧ progressValue processed ≤ 2 ^ 31 - 1 ∧
    (processed < 2 ^ 51 →
      progressValue processed * 2 ^ 20 ≤ processed ∧
      processed < (progressValue processed + 1) * 2 ^ 20) := by
  unfold progressValue
  refine ⟨by omega, by omega, fun h => ?_⟩
  omega

/-- C6, witness: the counter at 5 MiB and 7 bytes. -/
theorem progressValue_range_witness :
    (0 : Int) ≤ 5 * 2 ^ 20 + 7 ∧ (5 * 2 ^ 20 + 7 : Int) < 2 ^ 63 ∧
    (0 ≤ progressValue (5 * 2 ^ 20 + 7) ∧ progressValue (5 * 2 ^ 20 + 7) ≤ 2 ^ 31 - 1 ∧
    ((5 * 2 ^ 20 + 7 : Int) < 2 ^ 51 →
      progressValue (5 * 2 ^ 20 + 7) * 2 ^ 20 ≤ 5 * 2 ^ 20 + 7 ∧
      (5 * 2 ^ 20 + 7 : Int) < (progressValue (5 * 2 ^ 20 + 7) + 1) * 2 ^ 20)) :=
  ⟨by decide, by decide, progressValue_range (5 * 2 ^ 20 + 7) (by decide) (by decide)⟩

/-! ## Lemmas: processBatch -/

theorem processBatch_nil (mimeDb : String → String) (minimumSize : Int) (st : BatchState) :
    processBatch mimeDb minimumSize [] st = st := rfl

theorem processBatch_cons (mimeDb : String → String) (minimumSize : Int)
    (e : String × QFileInfo) (es : List (String × QFileInfo)) (st : BatchState) :
    processBatch mimeDb minimumSize (e :: es) st =
      processBatch mimeDb minimumSize es (processEntry mimeDb minimumSize st e) := rfl

theorem processEntry_total (mimeDb : String → String) (minimumSize : Int) (st : BatchState)
    (e : String × QFileInfo) :
    (processEntry mimeDb minimumSize st e).totalProcessedSize =
      wrapInt64 (st.totalProcessedSize + e.2.size) := by
  unfold processEntry
  dsimp only
  split
  · split <;> rfl
  · rfl

theorem processEntry_results (mimeDb : String → String) (minimumSize : Int) (st : BatchState)
    (e : String × QFileInfo) :
    ∃ t, (processEntry mimeDb minimumSize st e).results =
      st.results ++ (if e.2.size ≥ minimumSize then [mkFileInfo e.1 e.2 t] else []) := by
  unfold processEntry
  dsimp only
  by_cases h : e.2.size ≥ minimumSize
  · simp only [h, if_true]
    split
    · exact ⟨_, rfl⟩
    · exact ⟨_, rfl⟩
  · simp only [h, if_false]
    exact ⟨"", by simp⟩

theorem wrapInt64_add (a b : Int) : wrapInt64 (wrapInt64 a + b) = wrapInt64 (a + b) := by
  unfold wrapInt64
  omega

theorem wrapInt64_of_inRange (a : Int) (h0 : -2 ^ 63 ≤ a) (h1 : a < 2 ^ 63) :
    wrapInt64 a = a := by
  unfold wrapInt64
  omega

theorem wrapInt64_inRange (a : Int) : -2 ^ 63 ≤ wrapInt64 a ∧ wrapInt64 a < 2 ^ 63 := by
  unfold wrapInt64
  omega

theorem processBatch_total_wrap (mimeDb : String → String) (minimumSize : Int)
    (batch : List (String × QFileInfo)) :
    ∀ st : BatchState,
      wrapInt64 (processBatch mimeDb minimumSize batch st).totalProcessedSize =
        wrapInt64 (st.totalProcessedSize + (batch.map fun e => e.2.size).sum) := by
  induction batch with
  | nil => intro st; simp [processBatch_nil]
  | cons e es ih =>
    intro st
    rw [processBatch_cons, ih, processEntry_total, wrapInt64_add]
    simp only [List.map_cons, List.sum_cons, add_assoc]

theorem processBatch_total_inRange (mimeDb : String → String) (minimumSize : Int)
    (batch : List (String × QFileInfo)) :
    ∀ st : BatchState, -2 ^ 63 ≤ st.totalProcessedSize → st.totalProcessedSize < 2 ^ 63 →
      -2 ^ 63 ≤ (processBatch mimeDb minimumSize batch st).totalProcessedSize ∧
      (processBatch mimeDb minimumSize batch st).totalProcessedSize < 2 ^ 63 := by
  induction batch with
  | nil => intro st h0 h1; exact ⟨h0, h1⟩
  | cons e es ih =>
    intro st _ _
    rw [processBatch_cons]
    have h := wrapInt64_inRange (st.totalProcessedSize + e.2.size)
    exact ih _ (by rw [processEntry_total]; exact h.1) (by rw [processEntry_total]; exact h.2)

theorem processBatch_appends (mimeDb : String → String) (minimumSize : Int)
    (batch : List (String × QFileInfo)) :
    ∀ st : BatchState, ∃ appended : List FileInfo,
      (processBatch mimeDb minimumSize batch st).results = st.results ++ appended ∧
      appended.map (fun f => (f.path, f.size)) =
        (batch.filter fun e => decide (e.2.size ≥ minimumSize)).map
          (fun e => (e.1, e.2.size)) ∧
      ∀ f ∈ appended, f.size ≥ minimumSize ∧ f.isDirectory = false := by
  induction batch with
  | nil => intro st; exact ⟨[], by simp [processBatch_nil]⟩
  | cons e es ih =>
    intro st
    obtain ⟨t, ht⟩ := processEntry_results mimeDb minimumSize st e
    obtain ⟨app, h1, h2, h3⟩ := ih (processEntry mimeDb minimumSize st e)
    rw [processBatch_cons, h1, ht]
    by_cases h : e.2.size ≥ minimumSize
    · refine ⟨mkFileInfo e.1 e.2 t :: app, by simp [h], ?_, ?_⟩
      · simp [h, h2, mkFileInfo]
      · intro f hf
        rcases List.mem_cons.1 hf with rfl | hf
        · exact ⟨h, rfl⟩
        · exact h3 f hf
    · refine ⟨app, by simp [h], ?_, h3⟩
      simp [h, h2]

/-! ## Theorems: processBatch -/

/-- C3: when every `FileInfo` already in the accumulator has size at least
`minimumSize`, so has every one after `processBatch`; and what `processBatch` appends
is, in order, one record for each pair of the batch whose size is at least
`minimumSize` (with that pair's path and size) and nothing for the others. -/
theorem processBatch_size_filter (mimeDb : String → String) (minimumSize : Int)
    (batch : List (String × QFileInfo)) (st : BatchState)
    (h : ∀ f ∈ st.results, f.size ≥ minimumSize) :
    (∀ f ∈ (processBatch mimeDb minimumSize batch st).results, f.size ≥ minimumSize) ∧
    ∃ appended : List FileInfo,
      (processBatch mimeDb minimumSize batch st).results = st.results ++ appended ∧
      appended.map (fun f => (f.path, f.size)) =
        (batch.filter fun e => decide (e.2.size ≥ minimumSize)).map
          (fun e => (e.1, e.2.size)) := by
  obtain ⟨app, h1, h2, h3⟩ := processBatch_appends mimeDb minimumSize batch st
  refine ⟨?_, app, h1, h2⟩
  intro f hf
  rw [h1] at hf
  rcases List.mem_append.1 hf with hf | hf
  · exact h f hf
  · exact (h3 f hf).1

/-- C3, witness: the sample batch on the sample accumulator with `minimumSize` one
million. -/
theorem processBatch_size_filter_witness :
    (∀ f ∈ sampleBatchState.results, f.size ≥ 1000000) ∧
    (∀ f ∈ (processBatch sampleMimeDb 1000000 sampleBatch sampleBatchState).results,
      f.size ≥ 1000000) :=
  ⟨by decide,
    (processBatch_size_filter sampleMimeDb 1000000 sampleBatch sampleBatchState
      (by decide)).1⟩

/-- C7: when the counter and the counter plus the sizes of the batch are in the
range of `qint64` (no overflow), `processBatch` leaves the counter increased by
exactly the sum of the sizes of all pairs of the batch, whatever `minimumSize` is. -/
theorem processBatch_counts_every_file (mimeDb : String → String) (minimumSize : Int)
    (batch : List (String × QFileInfo)) (st : BatchState)
    (h0 : -2 ^ 63 ≤ st.totalProcessedSize) (h1 : st.totalProcessedSize < 2 ^ 63)
    (h2 : -2 ^ 63 ≤ st.totalProcessedSize + (batch.map fun e => e.2.size).sum)
    (h3 : st.totalProcessedSize + (batch.map fun e => e.2.size).sum < 2 ^ 63) :
    (processBatch mimeDb minimumSize batch st).totalProcessedSize =
      st.totalProcessedSize + (batch.map fun e => e.2.size).sum := by
  have hr := processBatch_total_inRange mimeDb minimumSize batch st h0 h1
  have hw := processBatch_total_wrap mimeDb minimumSize batch st
  rw [wrapInt64_of_inRange _ hr.1 hr.2, wrapInt64_of_inRange _ h2 h3] at hw
  exact hw

/-- C7, witness: the sample batch adds 500 + 2,000,000 to a counter at 3,000,000,
though only one of its two files passes the filter. -/
theorem processBatch_counts_every_file_witness :
    (processBatch sampleMimeDb 1000000 sampleBatch sampleBatchState).totalProcessedSize =
      3000000 + (500 + (2000000 + 0)) :=
  processBatch_counts_every_file sampleMimeDb 1000000 sampleBatch sampleBatchState
    (by decide) (by decide) (by decide) (by decide)

/-! ## Lemmas: the final sort -/

theorem mem_insertByComp {α : Type} (comp : α → α → Bool) (x a : α) (l : List α) :
    a ∈ insertByComp comp x l ↔ a = x ∨ a ∈ l := by
  induction l with
  | nil => simp [insertByComp]
  | cons y ys ih =>
    unfold insertByComp
    split
    · simp
    · simp only [List.mem_cons, ih]
      tauto

theorem insertByComp_sizes_pairwise (x : FileInfo) (l : List FileInfo)
    (h : l.Pairwise fun a b => a.size ≥ b.size) :
    (insertByComp (fun a b => decide (a.size > b.size)) x l).Pairwise
      fun a b => a.size ≥ b.size := by
  induction l with
  | nil => simp [insertByComp]
  | cons y ys ih =>
    rw [List.pairwise_cons] at h
    unfold insertByComp
    by_cases hc : x.size > y.size
    · simp only [hc, decide_True, if_true]
      refine List.pairwise_cons.2 ⟨?_, List.pairwise_cons.2 h⟩
      intro a ha
      rcases List.mem_cons.1 ha with rfl | ha
      · omega
      · have := h.1 a ha
        omega
    · simp only [hc, decide_False, Bool.false_eq_true, if_false]
      refine List.pairwise_cons.2 ⟨?_, ih h.2⟩
      intro a ha
      rcases (mem_insertByComp _ x a ys).1 ha with rfl | ha
      · omega
      · exact h.1 a ha

theorem sortResults_pairwise (results : List FileInfo) :
    (sortResults results).Pairwise fun a b => a.size ≥ b.size := by
  induction results with
  | nil => simp [sortResults, stdSort]
  | cons x xs ih => exact insertByComp_sizes_pairwise x _ ih

theorem insertByComp_perm {α : Type} (comp : α → α → Bool) (x : α) (l : List α) :
    (insertByComp comp x l).Perm (x :: l) := by
  induction l with
  | nil => simp [insertByComp]
  | cons y ys ih =>
    unfold insertByComp
    split
    · exact List.Perm.refl _
    · exact ((List.Perm.cons y ih).trans (List.Perm.swap x y ys))

theorem sortResults_perm (results : List FileInfo) : (sortResults results).Perm results := by
  induction results with
  | nil => simp [sortResults, stdSort]
  | cons x xs ih => exact (insertByComp_perm _ x _).trans (List.Perm.cons x ih)

/-! ## Lemmas: getFileType -/

theorem getFileType_of_cached (mimeDb : String → String) (path t : String) (s : MimeState)
    (he : toLower (suffixOf path) ≠ "")
    (hc : s.mimeTypeCache.find (toLower (suffixOf path)) = some t) :
    getFileType mimeDb path s = (t, s) := by
  unfold getFileType
  simp [he, hc]

theorem getFileType_caches (mimeDb : String → String) (path : String) (s : MimeState)
    (he : toLower (suffixOf path) ≠ "") :
    (getFileType mimeDb path s).2.mimeTypeCache.find (toLower (suffixOf path)) =
      some (getFileType mimeDb path s).1 := by
  unfold getFileType
  simp only [he, if_false]
  cases hc : s.mimeTypeCache.find (toLower (suffixOf path)) with
  | some t => simpa using hc
  | none => simp [QHash.insert, QHash.find]

theorem getFileType_keeps_cached (mimeDb : String → String) (path e t : String)
    (s : MimeState) (hc : s.mimeTypeCache.find e = some t) :
    (getFileType mimeDb path s).2.mimeTypeCache.find e = some t := by
  unfold getFileType
  dsimp only
  split
  · exact hc
  · cases hp : s.mimeTypeCache.find (toLower (suffixOf path)) with
    | some v => simpa using hc
    | none =>
      have hne : toLower (suffixOf path) ≠ e := by
        intro h
        rw [h, hc] at hp
        cases hp
      simp [QHash.insert, QHash.find, hne, hc]

theorem getFileTypeCalls_keeps_cached (mimeDb : String → String) (e t : String)
    (paths : List String) :
    ∀ s : MimeState, s.mimeTypeCache.find e = some t →
      (getFileTypeCalls mimeDb paths s).mimeTypeCache.find e = some t := by
  induction paths with
  | nil => intro s h; exact h
  | cons p ps ih =>
    intro s h
    exact ih _ (getFileType_keeps_cached mimeDb p e t s h)

/-! ## Theorems: the final sort, getFileType -/

/-- C10: in a sequential run, once `getFileType` has been called for a path `p1`
whose lower-cased extension `e` is not empty, then after any further calls of
`getFileType` a call for any path `p2` with the same extension returns the type the
first call returned, leaves the static state as it is, and so hands nothing more to
the external MIME database. -/
theorem getFileType_cached_after_first_call (mimeDb : String → String) (e p1 p2 : String)
    (between : List String) (s : MimeState) (hne : e ≠ "")
    (h1 : toLower (suffixOf p1) = e) (h2 : toLower (suffixOf p2) = e) :
    getFileType mimeDb p2 (getFileTypeCalls mimeDb between (getFileType mimeDb p1 s).2) =
      ((getFileType mimeDb p1 s).1,
        getFileTypeCalls mimeDb between (getFileType mimeDb p1 s).2) ∧
    (getFileType mimeDb p2
        (getFileTypeCalls mimeDb between (getFileType mimeDb p1 s).2)).2.lookups =
      (getFileTypeCalls mimeDb between (getFileType mimeDb p1 s).2).lookups := by
  subst h1
  have hc := getFileType_caches mimeDb p1 s hne
  have hk := getFileTypeCalls_keeps_cached mimeDb _ _ between _ hc
  have := getFileType_of_cached mimeDb p2 _ _ (by rw [h2]; exact hne) (by rw [h2]; exact hk)
  rw [this]
  exact ⟨rfl, rfl⟩

/-- C10, witness: after the first call for "/r/a.TXT" (extension "txt") and a call
for "/r/c.bin", the call for "/r/b.txt" returns the type of the first call, "text/plain",
although the MIME database would answer otherwise for that path. -/
theorem getFileType_cached_after_first_call_witness :
    getFileType sampleMimeDb "/r/b.txt"
        (getFileTypeCalls sampleMimeDb ["/r/c.bin"]
          (getFileType sampleMimeDb "/r/a.TXT" ⟨[], []⟩).2) =
      ((getFileType sampleMimeDb "/r/a.TXT" ⟨[], []⟩).1,
        getFileTypeCalls sampleMimeDb ["/r/c.bin"]
          (getFileType sampleMimeDb "/r/a.TXT" ⟨[], []⟩).2) ∧
    (getFileType sampleMimeDb "/r/a.TXT" ⟨[], []⟩).1 = "text/plain" :=
  ⟨(getFileType_cached_after_first_call sampleMimeDb "txt" "/r/a.TXT" "/r/b.txt"
      ["/r/c.bin"] ⟨[], []⟩ (by decide) (by decide) (by decide)).1, by decide⟩

/-! ## Lemmas: termination of startScan -/

mutual
theorem sum_entryWeight_node (base : String) :
    ∀ n : Node, ((entriesOfNode base n).map entryWeight).sum = nodeWeight n
  | .file .. => by simp [entriesOfNode, nodeWeight, entryWeight]
  | .dir name _ _ _ cs => by
    have h := sum_entryWeight_forest (base ++ "/" ++ name) cs
    simp only [entriesOfNode, nodeWeight, entryWeight, List.map_cons, List.sum_cons, h]
    simp
theorem sum_entryWeight_forest (base : String) :
    ∀ ns : List Node, ((entriesOfForest base ns).map entryWeight).sum = forestWeight ns
  | [] => by simp [entriesOfForest, forestWeight]
  | n :: ns => by
    have h1 := sum_entryWeight_node base n
    have h2 := sum_entryWeight_forest base ns
    simp only [entriesOfForest, forestWeight, List.map_append, List.sum_append, h1, h2]
end

theorem afterEnumeration_pc (mimeDb : String → String) (s : ScanState)
    (batch : List (String × QFileInfo)) :
    (afterEnumeration mimeDb s batch).pc = .loopHead ∧
    (afterEnumeration mimeDb s batch).workQueue = s.workQueue ∧
    (afterEnumeration mimeDb s batch).activeThreads = s.activeThreads ∧
    (afterEnumeration mimeDb s batch).shouldStop = s.shouldStop := ⟨rfl, rfl, rfl, rfl⟩

theorem step_singleWorker (mimeDb : String → String) (s : ScanState) (h : SingleWorker s) :
    SingleWorker (step mimeDb s) := by
  unfold step
  split
  · simp [SingleWorker]
  · rename_i hpc
    simp only [SingleWorker, hpc] at h
    split
    · simp [SingleWorker, exitWorker]
    · split
      · simpa [SingleWorker] using h
      · split
        · simp [SingleWorker, exitWorker]
        · simpa [SingleWorker, hpc] using h
  · rename_i hpc
    simp only [SingleWorker, hpc] at h
    simpa [SingleWorker, afterEnumeration] using h
  · rename_i hpc
    simp only [SingleWorker, hpc] at h
    split
    · simpa [SingleWorker, afterEnumeration] using h
    · split
      · split <;> simpa [SingleWorker] using h
      · split <;> simpa [SingleWorker] using h
  · split <;> simp [SingleWorker]
  · simp [SingleWorker]
  · exact h

theorem step_stepsLeft (mimeDb : String → String) (s : ScanState) (h : SingleWorker s)
    (hs : scanning s = true) : stepsLeft (step mimeDb s) < stepsLeft s := by
  unfold step
  split
  · rename_i hpc
    simp only [stepsLeft, hpc, WorkQueue.push, itemWeight, List.nil_append, List.map_cons,
      List.map_nil, List.sum_cons, List.sum_nil]
    omega
  · rename_i hpc
    simp only [SingleWorker, hpc] at h
    split
    · simp only [stepsLeft, hpc, exitWorker]
      omega
    · split
      · rename_i item q hpop
        have hd : s.workQueue.dirs = item :: q.dirs := by
          unfold WorkQueue.pop at hpop
          split at hpop
          · simp at hpop
          · rename_i d rest hdirs
            simp only [Prod.mk.injEq, Option.some.injEq] at hpop
            rw [hdirs, ← hpop.1, ← hpop.2]
        simp only [stepsLeft, hpc, hd, List.map_cons, List.sum_cons, itemWeight,
          sum_entryWeight_forest]
        omega
      · split
        · simp only [stepsLeft, hpc, exitWorker]
          omega
        · rename_i hne
          exact absurd (by rw [h]; rfl) hne
  · rename_i hpc
    simp only [stepsLeft, hpc, afterEnumeration]
    omega
  · rename_i e rest batch hpc
    split
    · simp only [stepsLeft, hpc, afterEnumeration]
      omega
    · split
      · rename_i hdir
        split
        · simp only [stepsLeft, hpc, WorkQueue.push, List.map_append, List.sum_append,
            List.map_cons, List.sum_cons, List.map_nil, List.sum_nil, itemWeight, entryWeight,
            hdir, if_true]
          omega
        · simp only [stepsLeft, hpc, List.map_cons, List.sum_cons, entryWeight, hdir, if_true]
          omega
      · rename_i hdir
        split
        · simp only [stepsLeft, hpc, List.map_cons, List.sum_cons, entryWeight, hdir]
          simp
        · simp only [stepsLeft, hpc, List.map_cons, List.sum_cons, entryWeight, hdir]
          simp
  · rename_i hpc
    split <;> simp [stepsLeft, hpc]
  · rename_i hpc
    simp [stepsLeft, hpc]
  · rename_i hpc
    simp [scanning, hpc] at hs

theorem run_of_not_scanning (mimeDb : String → String) (n : Nat) (s : ScanState)
    (h : scanning s = false) : run mimeDb n s = s := by
  induction n with
  | zero => rfl
  | succ n ih =>
    have hstep : step mimeDb s = s := by
      unfold step
      split <;> simp_all [scanning]
    rw [run, hstep, ih]

theorem run_returns (mimeDb : String → String) (n : Nat) :
    ∀ s : ScanState, SingleWorker s → stepsLeft s ≤ n → scanning (run mimeDb n s) = false := by
  induction n with
  | zero =>
    intro s _ hle
    cases hs : scanning s with
    | false => exact hs
    | true =>
      exfalso
      revert hle hs
      unfold stepsLeft scanning
      split <;> simp_all
  | succ n ih =>
    intro s hw hle
    cases hs : scanning s with
    | false => rw [run_of_not_scanning mimeDb _ s hs]; exact hs
    | true =>
      have := step_stepsLeft mimeDb s hw hs
      exact ih _ (step_singleWorker mimeDb s hw) (by omega)

theorem startScan_returns (mimeDb : String → String) (root : List Node) (directory : String)
    (minSize : Int) (mime : MimeState) :
    scanning (startScan mimeDb root directory minSize mime) = false :=
  run_returns mimeDb _ _ (by simp [SingleWorker, invokedState]) (le_refl _)

/-! ## Lemmas: the signals of startScan -/

theorem emitsComplete_append_progress (events : List Event) (v : Int) :
    emitsComplete (events ++ [.scanProgress v]) = emitsComplete events := by
  simp [emitsComplete]

theorem step_noCompleteYet (mimeDb : String → String) (s : ScanState) (h : NoCompleteYet s) :
    NoCompleteYet (step mimeDb s) := by
  unfold NoCompleteYet at *
  unfold step
  split
  · rename_i hpc
    intro _
    exact h (by simp [scanning, hpc])
  · rename_i hpc
    have h0 := h (by simp [scanning, hpc])
    split
    · intro _; exact h0
    · split
      · intro _; exact h0
      · split
        · intro _; exact h0
        · intro _; exact h0
  · rename_i hpc
    have h0 := h (by simp [scanning, hpc])
    intro _
    simpa [afterEnumeration, emitsComplete_append_progress] using h0
  · rename_i hpc
    have h0 := h (by simp [scanning, hpc])
    split
    · intro _
      simpa [afterEnumeration, emitsComplete_append_progress] using h0
    · split
      · split <;> (intro _; exact h0)
      · split <;> (intro _; exact h0)
  · rename_i hpc
    have h0 := h (by simp [scanning, hpc])
    split <;> (intro _; exact h0)
  · intro hs
    simp [scanning] at hs
  · exact h

theorem run_noCompleteYet (mimeDb : String → String) (n : Nat) :
    ∀ s : ScanState, NoCompleteYet s → NoCompleteYet (run mimeDb n s) := by
  induction n with
  | zero => intro s h; exact h
  | succ n ih => intro s h; exact ih _ (step_noCompleteYet mimeDb s h)

theorem step_uncancelled (mimeDb : String → String) (s : ScanState) (h : Uncancelled s) :
    Uncancelled (step mimeDb s) := by
  obtain ⟨h1, h2⟩ := h
  cases hpc : s.pc with
  | invoked d r m => simp [Uncancelled, step, hpc, scanning]
  | loopHead =>
    simp only [hpc] at h1
    rcases hpop : s.workQueue.pop with ⟨_ | item, q⟩
    · by_cases ha : s.activeThreads - 1 = 0
      · simp [Uncancelled, step, hpc, h1, hpop, ha, scanning, exitWorker]
      · simp [Uncancelled, step, hpc, h1, hpop, ha, scanning]
    · simp [Uncancelled, step, hpc, h1, hpop, scanning]
  | enumerating it batch =>
    simp only [hpc] at h1
    cases it with
    | nil => simp [Uncancelled, step, hpc, scanning, afterEnumeration, h1]
    | cons e rest =>
      by_cases hd : e.info.isDir = true
      · by_cases hq : e.info.size ≥ s.minimumSize
        · simp [Uncancelled, step, hpc, h1, hd, hq, scanning]
        · simp [Uncancelled, step, hpc, h1, hd, hq, scanning]
      · by_cases hl : (batch ++ [(e.info.filePath, e.info)]).length ≥ 100
        · simp only [Uncancelled, step, hpc, h1, hd, hl, scanning, if_true, if_false]
          simp
        · simp only [Uncancelled, step, hpc, h1, hd, hl, scanning, if_false]
          simp
  | joined =>
    simp only [hpc] at h1
    simp [Uncancelled, step, hpc, scanning, h1]
  | sorting =>
    simp only [hpc] at h1
    simp only [Uncancelled, step, hpc]
    exact ⟨h1, fun _ => ⟨s.results, by simp⟩⟩
  | returned =>
    have hst : step mimeDb s = s := by simp [step, hpc]
    rw [hst]
    exact ⟨by simpa [hpc] using h1, h2⟩

theorem run_uncancelled (mimeDb : String → String) (n : Nat) :
    ∀ s : ScanState, Uncancelled s → Uncancelled (run mimeDb n s) := by
  induction n with
  | zero => intro s h; exact h
  | succ n ih => intro s h; exact ih _ (step_uncancelled mimeDb s h)

theorem step_cancelled (mimeDb : String → String) (s : ScanState) (h : Cancelled s) :
    Cancelled (step mimeDb s) ∧ cancelRank (step mimeDb s) ≤ cancelRank s - 1 := by
  obtain ⟨hstop, hev, hpc⟩ := h
  unfold step
  split
  · rename_i hp
    simp [beforeFinalTest, scanning, hp] at hpc
  · rename_i hp
    simp [hstop, Cancelled, exitWorker, hev, beforeFinalTest, cancelRank, hp]
  · rename_i hp
    simp [hstop, Cancelled, afterEnumeration, hev, beforeFinalTest, cancelRank, hp,
      emitsComplete_append_progress]
  · rename_i hp
    simp [hstop, Cancelled, afterEnumeration, hev, beforeFinalTest, cancelRank, hp,
      emitsComplete_append_progress]
  · rename_i hp
    simp [hstop, Cancelled, hev, scanning, cancelRank, hp]
  · rename_i hp
    simp [beforeFinalTest, scanning, hp] at hpc
  · rename_i hp
    simp [hstop, Cancelled, hev, scanning, cancelRank, hp]

theorem run_cancelled (mimeDb : String → String) (n : Nat) :
    ∀ s : ScanState, Cancelled s →
      Cancelled (run mimeDb n s) ∧ cancelRank (run mimeDb n s) ≤ cancelRank s - n := by
  induction n with
  | zero => intro s h; exact ⟨h, by simp [run]⟩
  | succ n ih =>
    intro s h
    obtain ⟨h1, h2⟩ := step_cancelled mimeDb s h
    obtain ⟨h3, h4⟩ := ih _ h1
    exact ⟨h3, by rw [run]; omega⟩

theorem cancelRank_le (s : ScanState) : cancelRank s ≤ 3 := by
  unfold cancelRank
  split <;> simp

theorem not_scanning_of_cancelRank (s : ScanState) (h : Cancelled s) (h0 : cancelRank s = 0) :
    scanning s = false := by
  rcases h.2.2 with hb | hb
  · revert hb h0
    unfold cancelRank beforeFinalTest scanning
    split <;> simp_all
  · exact hb

/-! ## Theorems: startScan -/

/-- C2: the sort at the end of `startScan` leaves every merged result list ordered
by size, non-increasing from each entry to the next; and a scan that is not
cancelled returns having emitted, as its last signal, `scanComplete` with a list
ordered that way. -/
theorem scanComplete_sorted_by_size_desc :
    (∀ merged : List FileInfo,
      List.Chain' (fun a b => a.size ≥ b.size) (sortResults merged)) ∧
    ∀ (mimeDb : String → String) (root : List Node) (directory : String) (minSize : Int)
      (mime : MimeState), ∃ files : List FileInfo,
        (startScan mimeDb root directory minSize mime).events.getLast? =
          some (.scanComplete files) ∧
        List.Chain' (fun a b => a.size ≥ b.size) files := by
  refine ⟨fun merged => (sortResults_pairwise merged).chain', ?_⟩
  intro mimeDb root directory minSize mime
  have hu : Uncancelled (startScan mimeDb root directory minSize mime) :=
    run_uncancelled mimeDb _ _ (by simp [Uncancelled, invokedState, scanning])
  obtain ⟨merged, hm⟩ := hu.2 (startScan_returns mimeDb root directory minSize mime)
  exact ⟨_, hm, (sortResults_pairwise merged).chain'⟩

/-- C4 (as stated, refuted): on a root without entries, a call of `stop` after the
fifth step, when `startScan` has passed its test of `shouldStop` and has not yet
returned, is followed by the emission of `scanComplete`; and so is a call of `stop`
right after the slot was invoked, before line 45 clears the flag. -/
theorem stop_after_final_test_still_completes :
    scanning (run (fun _ => "") 5 (invokedState [] "/r" 0 ⟨[], []⟩)) = true ∧
    emitsComplete
      (run (fun _ => "") 1 (stop (run (fun _ => "") 5 (invokedState [] "/r" 0 ⟨[], []⟩)))).events
      = true ∧
    scanning (invokedState [] "/r" 0 ⟨[], []⟩) = true ∧
    emitsComplete (run (fun _ => "") 6 (stop (invokedState [] "/r" 0 ⟨[], []⟩))).events
      = true := by
  decide

/-- C4 (amended): a call of `stop` at any point after `startScan` has cleared the
flag (line 45) and before it tests the flag for the last time (line 166) makes the
scan return within three more steps, and `scanComplete` is never emitted. -/
theorem stop_before_final_test_suppresses_scanComplete (mimeDb : String → String)
    (root : List Node) (directory : String) (minSize : Int) (mime : MimeState) (k : Nat)
    (h : beforeFinalTest (run mimeDb k (invokedState root directory minSize mime)) = true) :
    scanning (run mimeDb 3
      (stop (run mimeDb k (invokedState root directory minSize mime)))) = false ∧
    ∀ n, emitsComplete (run mimeDb n
      (stop (run mimeDb k (invokedState root directory minSize mime)))).events = false := by
  have hn : NoCompleteYet (run mimeDb k (invokedState root directory minSize mime)) :=
    run_noCompleteYet mimeDb k _ (by simp [NoCompleteYet, invokedState, emitsComplete])
  have hs : scanning (run mimeDb k (invokedState root directory minSize mime)) = true := by
    revert h
    unfold beforeFinalTest scanning
    split <;> simp_all
  have hc : Cancelled (stop (run mimeDb k (invokedState root directory minSize mime))) :=
    ⟨rfl, hn hs, Or.inl h⟩
  refine ⟨?_, fun n => (run_cancelled mimeDb n _ hc).1.2.1⟩
  obtain ⟨h1, h2⟩ := run_cancelled mimeDb 3 _ hc
  have h3 := cancelRank_le (stop (run mimeDb k (invokedState root directory minSize mime)))
  exact not_scanning_of_cancelRank _ h1 (by omega)

/-- C4, witness: `stop` after two steps of the scan of the sample tree, when the
worker is enumerating the root. -/
theorem stop_before_final_test_suppresses_scanComplete_witness :
    beforeFinalTest (run sampleMimeDb 2 (invokedState sampleTree "/r" 0 ⟨[], []⟩)) = true ∧
    scanning (run sampleMimeDb 3
      (stop (run sampleMimeDb 2 (invokedState sampleTree "/r" 0 ⟨[], []⟩)))) = false ∧
    ∀ n, emitsComplete (run sampleMimeDb n
      (stop (run sampleMimeDb 2 (invokedState sampleTree "/r" 0 ⟨[], []⟩)))).events = false :=
  ⟨by decide,
    stop_before_final_test_suppresses_scanComplete sampleMimeDb sampleTree "/r" 0 ⟨[], []⟩ 2
      (by decide)⟩

/-- With one worker, for the root "/missing" that enumerates no entries `startScan`
emits `scanProgress` and `scanComplete` and does not emit `error`. -/
theorem missing_root_emits_no_error :
    emitsError (startScan (fun _ => "") [] "/missing" 0 ⟨[], []⟩).events = false ∧
    emitsProgress (startScan (fun _ => "") [] "/missing" 0 ⟨[], []⟩).events = true ∧
    emitsComplete (startScan (fun _ => "") [] "/missing" 0 ⟨[], []⟩).events = true := by
  decide

/-- With one worker, for every root directory that is missing or unreadable (its
enumeration yields no entries) `startScan` emits no `error`; it emits
`scanProgress` once, with 0, and then `scanComplete` with the empty list. -/
theorem missing_root_completes_empty (mimeDb : String → String) (directory : String)
    (minSize : Int) (mime : MimeState) :
    (startScan mimeDb [] directory minSize mime).events =
      [.scanProgress 0, .scanComplete []] ∧
    emitsError (startScan mimeDb [] directory minSize mime).events = false :=
  ⟨rfl, rfl⟩

/-- C1 (failing input): for the root "/r" that holds the directory "b" (recorded
size 4096) with the single file "c.bin" (5 bytes), and `minimumSize = 0`, the list
passed to `scanComplete` holds the path "/r/b/c.bin" twice: once from the pass over
"/r", which walks the whole subtree, and once from the later pass over "/r/b", which
that pass queued. -/
theorem startScan_lists_file_twice :
    (completedFiles (startScan (fun _ => "application/octet-stream")
        [Node.dir "b" 4096 0 0 [Node.file "c.bin" 5 0 0]] "/r" 0 ⟨[], []⟩).events).map
      (fun files => files.map fun f => f.path) = some ["/r/b/c.bin", "/r/b/c.bin"] := by
  decide

/-! ## Lemmas: file names -/

theorem counted_nonneg (w : WorkerPc) : 0 ≤ w.counted := by
  cases w <;> simp [WorkerPc.counted]

theorem sum_counted_update (maxThreads t : Nat) (ht : t < maxThreads)
    (workers : Nat → WorkerPc) (w : WorkerPc) :
    ∑ u ∈ Finset.range maxThreads, (Function.update workers t w u).counted =
      ∑ u ∈ Finset.range maxThreads, (workers u).counted - (workers t).counted + w.counted := by
  have hmem : t ∈ Finset.range maxThreads := Finset.mem_range.2 ht
  rw [← Finset.add_sum_erase _ _ hmem, ← Finset.add_sum_erase _ (fun u => (workers u).counted) hmem]
  have : ∀ u ∈ (Finset.range maxThreads).erase t,
      (Function.update workers t w u).counted = (workers u).counted := by
    intro u hu
    rw [Function.update_noteq (Finset.ne_of_mem_erase hu)]
  rw [Finset.sum_congr rfl this]
  simp only [Function.update_same]
  ring

theorem pop_none_dirs {α : Type} (q q1 : WorkQueue α) (h : q.pop = (none, q1)) :
    q.dirs = [] := by
  unfold WorkQueue.pop at h
  split at h
  · assumption
  · simp at h

theorem pop_some_dirs {α : Type} (q q1 : WorkQueue α) (d : α) (h : q.pop = (some d, q1)) :
    q.dirs = d :: q1.dirs := by
  unfold WorkQueue.pop at h
  split at h
  · simp at h
  · rename_i d1 rest hd
    simp only [Prod.mk.injEq, Option.some.injEq] at h
    rw [hd, ← h.1, ← h.2]

theorem steal_some_dirs {α : Type} (q q1 : WorkQueue α) (d : α)
    (h : q.steal = (some d, q1)) : q1.dirs = q.dirs.dropLast ∧ q.dirs ≠ [] := by
  unfold WorkQueue.steal at h
  split at h
  · simp at h
  · rename_i d1 hd
    simp only [Prod.mk.injEq, Option.some.injEq] at h
    refine ⟨by rw [← h.2], ?_⟩
    intro hnil
    rw [hnil] at hd
    simp at hd

theorem poolInit_inv (maxThreads : Nat) (directory : String) :
    PoolInv maxThreads (poolInit maxThreads directory) := by
  constructor
  · simp [poolInit, WorkerPc.counted]
  · intro t _ h
    simp [poolInit, WorkerPc.sawOwnQueueEmpty] at h

theorem poolInv_set_worker (maxThreads : Nat) (s : PoolState) (t : Nat) (w : WorkerPc)
    (a : Int) (h : PoolInv maxThreads s) (ht : t < maxThreads)
    (ha : a = s.activeThreads - (s.workers t).counted + w.counted)
    (hq : w.sawOwnQueueEmpty = true → (s.workQueues t).dirs = []) :
    PoolInv maxThreads
      { workQueues := s.workQueues, activeThreads := a,
        workers := Function.update s.workers t w } := by
  obtain ⟨h1, h2⟩ := h
  constructor
  · simp only [sum_counted_update maxThreads t ht, ha, h1]
  · intro u hu hs
    by_cases hut : u = t
    · subst hut
      simp only [Function.update_same] at hs
      exact hq hs
    · simp only [Function.update_noteq hut] at hs
      exact h2 u hu hs

theorem poolInv_set_queue (maxThreads : Nat) (s : PoolState) (i : Nat) (q : WorkQueue String)
    (h : PoolInv maxThreads s)
    (hq : (s.workers i).sawOwnQueueEmpty = true → q.dirs = []) :
    PoolInv maxThreads
      { workQueues := Function.update s.workQueues i q, activeThreads := s.activeThreads,
        workers := s.workers } := by
  obtain ⟨h1, h2⟩ := h
  refine ⟨h1, ?_⟩
  intro u hu hs
  by_cases hui : u = i
  · subst hui
    simp only [Function.update_same]
    exact hq hs
  · simp only [Function.update_noteq hui]
    exact h2 u hu hs

theorem poolStep_inv (maxThreads : Nat) (s : PoolState) (a : PoolAction)
    (h : PoolInv maxThreads s) : PoolInv maxThreads (poolStep maxThreads s a) := by
  cases a with
  | advance t =>
    by_cases ht : t < maxThreads
    · cases hw : s.workers t with
      | loopHead =>
        rcases hpop : (s.workQueues t).pop with ⟨_ | d, q⟩
        · simp only [poolStep, ht, if_true, hw, hpop]
          exact poolInv_set_worker maxThreads s t _ _ h ht
            (by simp [hw, WorkerPc.counted]) (fun _ => pop_none_dirs _ _ hpop)
        · simp only [poolStep, ht, if_true, hw, hpop]
          have h1 := poolInv_set_queue maxThreads s t q h
            (by simp [hw, WorkerPc.sawOwnQueueEmpty])
          exact poolInv_set_worker maxThreads _ t .enumerating _ h1 ht
            (by simp [hw, WorkerPc.counted]) (by simp [WorkerPc.sawOwnQueueEmpty])
      | stealing i =>
        by_cases hi : i < maxThreads
        · by_cases hit : i = t
          · simp only [poolStep, ht, if_true, hw, hi, hit, ne_eq, not_true_eq_false, if_false]
            exact poolInv_set_worker maxThreads s t _ _ h ht
              (by simp [hw, WorkerPc.counted])
              (fun _ => h.2 t ht (by simp [hw, WorkerPc.sawOwnQueueEmpty]))
          · rcases hst : (s.workQueues i).steal with ⟨_ | d, q⟩
            · simp only [poolStep, ht, if_true, hw, hi, hit, ne_eq, not_false_eq_true, hst]
              exact poolInv_set_worker maxThreads s t _ _ h ht
                (by simp [hw, WorkerPc.counted])
                (fun _ => h.2 t ht (by simp [hw, WorkerPc.sawOwnQueueEmpty]))
            · simp only [poolStep, ht, if_true, hw, hi, hit, ne_eq, not_false_eq_true, hst]
              have hs := steal_some_dirs _ _ _ hst
              have h1 := poolInv_set_queue maxThreads s i q h
                (fun hq => absurd (h.2 i hi hq) hs.2)
              exact poolInv_set_worker maxThreads _ t .enumerating _ h1 ht
                (by simp [hw, WorkerPc.counted]) (by simp [WorkerPc.sawOwnQueueEmpty])
        · simp only [poolStep, ht, if_true, hw, hi, if_false]
          exact poolInv_set_worker maxThreads s t _ _ h ht
            (by simp [hw, WorkerPc.counted])
            (fun _ => h.2 t ht (by simp [hw, WorkerPc.sawOwnQueueEmpty]))
      | noWork =>
        have hq := h.2 t ht (by simp [hw, WorkerPc.sawOwnQueueEmpty])
        by_cases h0 : s.activeThreads - 1 = 0
        · simp only [poolStep, ht, if_true, hw, h0]
          exact poolInv_set_worker maxThreads s t .exited 0 h ht
            (by simp [hw, WorkerPc.counted, h0]) (fun _ => hq)
        · simp only [poolStep, ht, if_true, hw, h0, if_false]
          exact poolInv_set_worker maxThreads s t .yielding _ h ht
            (by simp [hw, WorkerPc.counted]) (fun _ => hq)
      | yielding =>
        simp only [poolStep, ht, if_true, hw]
        exact poolInv_set_worker maxThreads s t .loopHead _ h ht
          (by simp [hw, WorkerPc.counted]) (by simp [WorkerPc.sawOwnQueueEmpty])
      | enumerating =>
        simp only [poolStep, ht, if_true, hw]
        exact h
      | exited =>
        simp only [poolStep, ht, if_true, hw]
        exact h
    · simp only [poolStep, ht, if_false]
      exact h
  | push t filePath =>
    by_cases hc : t < maxThreads ∧ s.workers t = .enumerating
    · simp only [poolStep, hc, and_self, if_true]
      exact poolInv_set_queue maxThreads s t _ h
        (by simp [hc.2, WorkerPc.sawOwnQueueEmpty])
    · simp only [poolStep, hc, if_false]
      exact h
  | endOfPass t =>
    by_cases hc : t < maxThreads ∧ s.workers t = .enumerating
    · simp only [poolStep, hc, and_self, if_true]
      exact poolInv_set_worker maxThreads s t .loopHead _ h hc.1
        (by simp [hc.2, WorkerPc.counted]) (by simp [WorkerPc.sawOwnQueueEmpty])
    · simp only [poolStep, hc, if_false]
      exact h

theorem poolRun_inv (maxThreads : Nat) (actions : List PoolAction) :
    ∀ s : PoolState, PoolInv maxThreads s → PoolInv maxThreads (poolRun maxThreads actions s) := by
  induction actions with
  | nil => intro s h; exact h
  | cons a as ih => intro s h; exact ih _ (poolStep_inv maxThreads s a h)

theorem poolInv_zero (maxThreads : Nat) (s : PoolState) (h : PoolInv maxThreads s)
    (h0 : s.activeThreads = 0) (t : Nat) (ht : t < maxThreads) :
    (s.workQueues t).dirs = [] ∧ s.workers t ≠ .enumerating := by
  obtain ⟨h1, h2⟩ := h
  rw [h0] at h1
  have hz := (Finset.sum_eq_zero_iff_of_nonneg
    (fun u _ => counted_nonneg (s.workers u))).1 h1.symm t (Finset.mem_range.2 ht)
  have hs : (s.workers t).sawOwnQueueEmpty = true := by
    revert hz
    cases s.workers t <;> simp [WorkerPc.counted, WorkerPc.sawOwnQueueEmpty]
  refine ⟨h2 t ht hs, ?_⟩
  intro he
  rw [he] at hz
  simp [WorkerPc.counted] at hz

theorem advance_exited (maxThreads : Nat) (s : PoolState) (u : Nat)
    (hex : (poolStep maxThreads s (.advance u)).workers u = .exited)
    (hne : s.workers u ≠ .exited) :
    s.workers u = .noWork ∧ (poolStep maxThreads s (.advance u)).activeThreads = 0 ∧
    (poolStep maxThreads s (.advance u)).workQueues = s.workQueues ∧
    ∀ t, t ≠ u → (poolStep maxThreads s (.advance u)).workers t = s.workers t := by
  by_cases hu : u < maxThreads
  · cases hw : s.workers u with
    | loopHead =>
      rcases hpop : (s.workQueues u).pop with ⟨_ | d, q⟩ <;>
        simp [poolStep, hu, hw, hpop] at hex
    | stealing i =>
      by_cases hi : i < maxThreads
      · by_cases hit : i = u
        · simp [poolStep, hu, hw, hi, hit] at hex
        · rcases hst : (s.workQueues i).steal with ⟨_ | d, q⟩ <;>
            simp [poolStep, hu, hw, hi, hit, hst] at hex
      · simp [poolStep, hu, hw, hi] at hex
    | noWork =>
      by_cases h0 : s.activeThreads - 1 = 0
      · refine ⟨rfl, ?_, ?_, ?_⟩
        · simp [poolStep, hu, hw, h0]
        · simp [poolStep, hu, hw, h0]
        · intro t htu
          simp [poolStep, hu, hw, h0, Function.update_noteq htu]
      · simp [poolStep, hu, hw, h0] at hex
    | yielding => simp [poolStep, hu, hw] at hex
    | enumerating => simp [poolStep, hu, hw] at hex
    | exited => exact absurd hw hne
  · simp only [poolStep, hu, if_false] at hex
    exact absurd hex hne

/-! ## Theorems: the worker pool -/

/-- C12: in every state the pool reaches by atomic actions of its workers (pop,
steal, push, decrement and increment of `activeThreads`, no cancellation), if the
queue of some worker `t` is not empty or worker `t` is enumerating a claimed
directory, then `activeThreads` is not zero, and no worker leaves its loop at its
next action: a worker that is `exited` after that action was so before. -/
theorem activeThreads_nonzero_while_work_remains (maxThreads : Nat) (directory : String)
    (actions : List PoolAction) (t : Nat) (ht : t < maxThreads)
    (hw : ((poolRun maxThreads actions (poolInit maxThreads directory)).workQueues t).dirs ≠ []
      ∨ (poolRun maxThreads actions (poolInit maxThreads directory)).workers t = .enumerating) :
    (poolRun maxThreads actions (poolInit maxThreads directory)).activeThreads ≠ 0 ∧
    ∀ u, (poolStep maxThreads (poolRun maxThreads actions (poolInit maxThreads directory))
          (.advance u)).workers u = .exited →
      (poolRun maxThreads actions (poolInit maxThreads directory)).workers u = .exited := by
  have hinv := poolRun_inv maxThreads actions _ (poolInit_inv maxThreads directory)
  constructor
  · intro h0
    have hz := poolInv_zero maxThreads _ hinv h0 t ht
    rcases hw with hw | hw
    · exact hw hz.1
    · exact hz.2 hw
  · intro u hex
    by_contra hne
    obtain ⟨hu, h0, hq, hk⟩ := advance_exited maxThreads _ u hex hne
    have hz := poolInv_zero maxThreads _ (poolStep_inv maxThreads _ (.advance u) hinv) h0 t ht
    rcases hw with hw | hw
    · rw [hq] at hz
      exact hw hz.1
    · have htu : t ≠ u := by
        intro h
        rw [h, hu] at hw
        cases hw
      rw [hk t htu] at hz
      exact hz.2 hw

/-- C12, witness: two workers on the root "/r"; worker 0 has claimed the root and
pushed "/r/b" while worker 1 found no work and stands before its decrement. Queue 0
is not empty; the counter is 2, and the decrement of worker 1 does not make it
leave. -/
theorem activeThreads_nonzero_while_work_remains_witness :
    ((poolRun 2 poolSampleActions (poolInit 2 "/r")).workQueues 0).dirs = ["/r/b"] ∧
    (poolRun 2 poolSampleActions (poolInit 2 "/r")).workers 1 = .noWork ∧
    (poolRun 2 poolSampleActions (poolInit 2 "/r")).activeThreads = 2 ∧
    (poolRun 2 poolSampleActions (poolInit 2 "/r")).activeThreads ≠ 0 :=
  ⟨by decide, by decide, by decide,
    (activeThreads_nonzero_while_work_remains 2 "/r" poolSampleActions 0 (by decide)
      (Or.inl (by decide))).1⟩

/-- The counter does reach zero: with one worker and a root without subdirectories,
after the pass over the root the worker finds no work, decrements the counter to
zero and leaves; every queue is then empty. -/
theorem pool_counter_reaches_zero :
    (poolRun 1 [.advance 0, .endOfPass 0, .advance 0, .advance 0, .advance 0, .advance 0]
      (poolInit 1 "/r")).activeThreads = 0 ∧
    (poolRun 1 [.advance 0, .endOfPass 0, .advance 0, .advance 0, .advance 0, .advance 0]
      (poolInit 1 "/r")).workers 0 = .exited := by
  decide

/-! ## Theorems: handleStartScan -/

theorem handleStartScan_exact_below_2048 (currentDirectory : String) (value : Int)
    (hd : currentDirectory ≠ "") (h0 : 0 ≤ value) (h1 : value ≤ 2047) :
    handleStartScan currentDirectory "Larger than..." value =
      some (currentDirectory, value * 1048576) := by
  unfold handleStartScan wrapInt32
  simp only [hd, if_false, if_true]
  congr 2
  omega

/-- C13 (failing input): with the filter "Larger than..." and the spin box at 2048
the product `2048 * 1024 * 1024` leaves the range of `int`; what is widened to
`qint64` is -2147483648 and not 2048 * 1,048,576 = 2147483648. -/
theorem handleStartScan_overflows_at_2048 :
    handleStartScan "/r" "Larger than..." 2048 = some ("/r", -2147483648) ∧
    handleStartScan "/r" "Larger than..." 2048 ≠ some ("/r", 2048 * 1048576) := by
  decide

/-! ## Lemmas: the scan with any number of workers -/

theorem maxThreadsOf_pos (idealThreadCount : Int) : 0 < maxThreadsOf idealThreadCount := by
  unfold maxThreadsOf
  omega

theorem sum_update_add (maxThreads t : Nat) (ht : t < maxThreads) {α : Type}
    (f : Nat → α) (x : α) (g : α → Nat) :
    ∑ u ∈ Finset.range maxThreads, g (Function.update f t x u) + g (f t) =
      ∑ u ∈ Finset.range maxThreads, g (f u) + g x := by
  have hmem : t ∈ Finset.range maxThreads := Finset.mem_range.2 ht
  rw [← Finset.add_sum_erase _ _ hmem, ← Finset.add_sum_erase _ (fun u => g (f u)) hmem]
  have : ∀ u ∈ (Finset.range maxThreads).erase t, g (Function.update f t x u) = g (f u) := by
    intro u hu
    rw [Function.update_noteq (Finset.ne_of_mem_erase hu)]
  rw [Finset.sum_congr rfl this]
  simp only [Function.update_same]
  omega

theorem qualCount_nil (minimumSize : Int) (p : FileInfo → Bool) :
    qualCount minimumSize p [] = 0 := rfl

theorem qualCount_append (minimumSize : Int) (p : FileInfo → Bool)
    (a b : List (String × QFileInfo)) :
    qualCount minimumSize p (a ++ b) = qualCount minimumSize p a + qualCount minimumSize p b := by
  simp [qualCount, List.filter_append, List.countP_append]

theorem filesOf_cons_dir (e : Entry) (rest : List Entry) (h : e.info.isDir = true) :
    filesOf (e :: rest) = filesOf rest := by
  simp [filesOf, List.filter_cons, h]

theorem filesOf_cons_file (e : Entry) (rest : List Entry) (h : ¬ e.info.isDir = true) :
    filesOf (e :: rest) = (e.info.filePath, e.info) :: filesOf rest := by
  simp [filesOf, List.filter_cons, h]

theorem processBatch_countP (mimeDb : String → String) (minimumSize : Int)
    (p : FileInfo → Bool) (hp : ∀ a b t, p (mkFileInfo a b t) = p (mkFileInfo a b ""))
    (batch : List (String × QFileInfo)) :
    ∀ st : BatchState,
      (processBatch mimeDb minimumSize batch st).results.countP p =
        st.results.countP p + qualCount minimumSize p batch := by
  induction batch with
  | nil => intro st; simp [processBatch_nil, qualCount]
  | cons e es ih =>
    intro st
    obtain ⟨t, ht⟩ := processEntry_results mimeDb minimumSize st e
    rw [processBatch_cons, ih, ht]
    have hc : qualCount minimumSize p (e :: es) =
        qualCount minimumSize p [e] + qualCount minimumSize p es :=
      qualCount_append minimumSize p [e] es
    rw [hc]
    by_cases h : e.2.size ≥ minimumSize
    · simp [h, qualCount, List.countP_append, List.countP_cons, hp e.1 e.2 t]
      omega
    · simp [h, qualCount]

theorem queueCount_pop (minimumSize : Int) (p : FileInfo → Bool)
    (q q1 : WorkQueue WorkItem) (item : WorkItem) (h : q.pop = (some item, q1)) :
    queueCount minimumSize p q =
      qualCount minimumSize p (filesOf (entriesOfForest item.path item.children))
        + queueCount minimumSize p q1 := by
  have hd := pop_some_dirs q q1 item h
  simp [queueCount, hd]

theorem steal_some_append {α : Type} (q q1 : WorkQueue α) (d : α)
    (h : q.steal = (some d, q1)) : q.dirs = q1.dirs ++ [d] := by
  unfold WorkQueue.steal at h
  split at h
  · simp at h
  · rename_i d1 hd
    simp only [Prod.mk.injEq, Option.some.injEq] at h
    rw [← h.2, ← h.1]
    have hne : q.dirs ≠ [] := by
      intro hnil
      rw [hnil] at hd
      simp at hd
    have hl : q.dirs.getLast hne = d1 := by
      have := List.getLast?_eq_getLast _ hne
      rw [this] at hd
      exact Option.some.inj hd
    rw [← hl]
    exact (List.dropLast_append_getLast hne).symm

theorem queueCount_steal (minimumSize : Int) (p : FileInfo → Bool)
    (q q1 : WorkQueue WorkItem) (item : WorkItem) (h : q.steal = (some item, q1)) :
    queueCount minimumSize p q =
      qualCount minimumSize p (filesOf (entriesOfForest item.path item.children))
        + queueCount minimumSize p q1 := by
  have hd := steal_some_append q q1 item h
  simp [queueCount, hd]
  omega

theorem scanInv_update (maxThreads : Nat) (minimumSize : Int) (p : FileInfo → Bool) (c : Nat)
    (s s1 : ParState) (h : ScanInv maxThreads minimumSize p c s)
    (t i : Nat) (ht : t < maxThreads) (hi : i < maxThreads)
    (w1 : ScanWorker) (q1 : WorkQueue WorkItem)
    (hw : s1.workers = Function.update s.workers t w1)
    (hq : s1.workQueues = Function.update s.workQueues i q1)
    (h1 : w1.pc.ownQueueSeenEmpty = true → (Function.update s.workQueues i q1 t).dirs = [])
    (h2 : (s.workQueues i).dirs = [] → q1.dirs = [])
    (h3 : ∀ item ∈ q1.dirs,
      quietEntries minimumSize (entriesOfForest item.path item.children))
    (h4 : ∀ it batch, w1.pc = .enumerating it batch → quietEntries minimumSize it)
    (h5 : workerCount minimumSize p w1 + queueCount minimumSize p q1 + s1.results.countP p =
      workerCount minimumSize p (s.workers t) + queueCount minimumSize p (s.workQueues i)
        + s.results.countP p) :
    ScanInv maxThreads minimumSize p c s1 := by
  obtain ⟨j1, j2, j3, j4⟩ := h
  refine ⟨?_, ?_, ?_, ?_⟩
  · intro u hu
    rw [hw] at hu
    rw [hq]
    by_cases hut : u = t
    · subst hut
      simp only [Function.update_same] at hu
      exact h1 hu
    · simp only [Function.update_noteq hut] at hu
      have hold := j1 u hu
      by_cases hui : u = i
      · subst hui
        simp only [Function.update_same]
        exact h2 hold
      · simp only [Function.update_noteq hui]
        exact hold
  · intro u item hitem
    rw [hq] at hitem
    by_cases hui : u = i
    · subst hui
      simp only [Function.update_same] at hitem
      exact h3 item hitem
    · simp only [Function.update_noteq hui] at hitem
      exact j2 u item hitem
  · intro u it batch hpc
    rw [hw] at hpc
    by_cases hut : u = t
    · subst hut
      simp only [Function.update_same] at hpc
      exact h4 it batch hpc
    · simp only [Function.update_noteq hut] at hpc
      exact j3 u it batch hpc
  · have e1 := sum_update_add maxThreads t ht s.workers w1 (workerCount minimumSize p)
    have e2 := sum_update_add maxThreads i hi s.workQueues q1 (queueCount minimumSize p)
    unfold pending at j4 ⊢
    rw [hw, hq]
    omega

theorem scanInv_move (maxThreads : Nat) (minimumSize : Int) (p : FileInfo → Bool) (c : Nat)
    (s s1 : ParState) (h : ScanInv maxThreads minimumSize p c s)
    (t : Nat) (ht : t < maxThreads) (w1 : ScanWorker)
    (hw : s1.workers = Function.update s.workers t w1)
    (hq : s1.workQueues = s.workQueues)
    (h1 : w1.pc.ownQueueSeenEmpty = true → (s.workQueues t).dirs = [])
    (h4 : ∀ it batch, w1.pc = .enumerating it batch → quietEntries minimumSize it)
    (h5 : workerCount minimumSize p w1 + s1.results.countP p =
      workerCount minimumSize p (s.workers t) + s.results.countP p) :
    ScanInv maxThreads minimumSize p c s1 := by
  refine scanInv_update maxThreads minimumSize p c s s1 h t t ht ht w1 (s.workQueues t) hw
    (by rw [hq, Function.update_eq_self]) (by rw [Function.update_eq_self]; exact h1)
    (fun h => h) (h.2.1 t) h4 (by omega)

theorem parStep_worker_inv (mimeDb : String → String) (maxThreads : Nat) (minimumSize : Int)
    (p : FileInfo → Bool) (hp : ∀ a b t, p (mkFileInfo a b t) = p (mkFileInfo a b ""))
    (c : Nat) (s : ParState) (t : Nat) (h : ScanInv maxThreads minimumSize p c s) :
    ScanInv maxThreads minimumSize p c (parStep mimeDb maxThreads minimumSize s (.worker t)) := by
  by_cases ht : t < maxThreads
  · cases hpc : (s.workers t).pc with
    | loopHead =>
      rcases hpop : (s.workQueues t).pop with ⟨_ | item, q⟩
      · simp only [parStep, ht, if_true, hpc, hpop]
        exact scanInv_move maxThreads minimumSize p c s _ h t ht _ rfl rfl
          (fun _ => pop_none_dirs _ _ hpop) (by simp)
          (by simp [workerCount, hpc, ParState.moveWorker])
      · simp only [parStep, ht, if_true, hpc, hpop]
        have hd := pop_some_dirs _ _ _ hpop
        have hitem : item ∈ (s.workQueues t).dirs := by rw [hd]; exact List.mem_cons_self _ _
        refine scanInv_update maxThreads minimumSize p c s _ h t t ht ht _ q rfl rfl
          (by simp [ScanPc.ownQueueSeenEmpty]) (fun h0 => by rw [h0] at hd; cases hd)
          (fun it hit => h.2.1 t it (by rw [hd]; exact List.mem_cons_of_mem _ hit))
          (fun it batch hit => ?_) ?_
        · simp only [ScanPc.enumerating.injEq] at hit
          rw [← hit.1]
          exact h.2.1 t item hitem
        · have := queueCount_pop minimumSize p _ _ _ hpop
          simp only [workerCount, hpc, ParState.moveWorker, qualCount_nil]
          omega
    | stealing i =>
      have hown := h.1 t (by rw [hpc]; rfl)
      by_cases hi : i < maxThreads
      · by_cases hit : i = t
        · simp only [parStep, ht, if_true, hpc, hi, hit, ne_eq, not_true_eq_false, if_false]
          exact scanInv_move maxThreads minimumSize p c s _ h t ht _ rfl rfl
            (fun _ => hown) (by simp) (by simp [workerCount, hpc, ParState.moveWorker])
        · rcases hst : (s.workQueues i).steal with ⟨_ | item, q⟩
          · simp only [parStep, ht, if_true, hpc, hi, hit, ne_eq, not_false_eq_true, hst]
            exact scanInv_move maxThreads minimumSize p c s _ h t ht _ rfl rfl
              (fun _ => hown) (by simp) (by simp [workerCount, hpc, ParState.moveWorker])
          · simp only [parStep, ht, if_true, hpc, hi, hit, ne_eq, not_false_eq_true, hst]
            have hd := steal_some_append _ _ _ hst
            have hitem : item ∈ (s.workQueues i).dirs := by rw [hd]; simp
            refine scanInv_update maxThreads minimumSize p c s _ h t i ht hi _ q rfl rfl
              (by simp [ScanPc.ownQueueSeenEmpty]) (fun h0 => by rw [h0] at hd; simp at hd)
              (fun it hmem => h.2.1 i it (by rw [hd]; simp [hmem]))
              (fun it batch hmem => ?_) ?_
            · simp only [ScanPc.enumerating.injEq] at hmem
              rw [← hmem.1]
              exact h.2.1 i item hitem
            · have := queueCount_steal minimumSize p _ _ _ hst
              simp only [workerCount, hpc, ParState.moveWorker, qualCount_nil]
              omega
      · simp only [parStep, ht, if_true, hpc, hi, if_false]
        exact scanInv_move maxThreads minimumSize p c s _ h t ht _ rfl rfl
          (fun _ => hown) (by simp) (by simp [workerCount, hpc, ParState.moveWorker])
    | noWork =>
      have hown := h.1 t (by rw [hpc]; rfl)
      by_cases h0 : s.activeThreads - 1 = 0
      · simp only [parStep, ht, if_true, hpc, h0]
        exact scanInv_move maxThreads minimumSize p c s _ h t ht _ rfl rfl
          (fun _ => hown) (by simp) (by simp [workerCount, hpc, ParState.moveWorker])
      · simp only [parStep, ht, if_true, hpc, h0, if_false]
        exact scanInv_move maxThreads minimumSize p c s _ h t ht _ rfl rfl
          (fun _ => hown) (by simp) (by simp [workerCount, hpc, ParState.moveWorker])
    | yielding =>
      simp only [parStep, ht, if_true, hpc]
      exact scanInv_move maxThreads minimumSize p c s _ h t ht _ rfl rfl
        (by simp [ScanPc.ownQueueSeenEmpty]) (by simp)
        (by simp [workerCount, hpc, ParState.moveWorker])
    | enumerating it batch =>
      have hquiet := h.2.2.1 t it batch hpc
      cases it with
      | nil =>
        simp only [parStep, ht, if_true, hpc]
        refine scanInv_move maxThreads minimumSize p c s _ h t ht _ rfl rfl
          (by simp [ScanPc.ownQueueSeenEmpty]) (by simp) ?_
        have hb := processBatch_countP mimeDb minimumSize p hp batch
          { results := (s.workers t).threadResults,
            fileTypeCache := (s.workers t).fileTypeCache,
            totalProcessedSize := s.totalProcessedSize, mime := s.mime }
        by_cases hbe : batch = []
        · subst hbe
          simp only [endOfPass, List.isEmpty_nil, if_true, workerCount, hpc, qualCount_nil,
            filesOf, List.filter_nil, List.map_nil]
          split <;> first | (simp [List.countP_append]; omega) | simp [List.countP_append]
        · have hne : batch.isEmpty = false := by
            cases batch with
            | nil => exact absurd rfl hbe
            | cons _ _ => rfl
          simp only [endOfPass, hne, Bool.false_eq_true, if_false, workerCount, hpc, workerBatch,
            filesOf, List.filter_nil, List.map_nil, qualCount_nil]
          split <;> first | (simp [List.countP_append, hb]; omega) | simp [List.countP_append, hb]
      | cons e rest =>
        by_cases hdir : e.info.isDir = true
        · have hsmall : ¬ e.info.size ≥ minimumSize := by
            have := hquiet e (List.mem_cons_self _ _) hdir
            omega
          simp only [parStep, ht, if_true, hpc, hdir, hsmall, if_false]
          exact scanInv_move maxThreads minimumSize p c s _ h t ht _ rfl rfl
            (by simp [ScanPc.ownQueueSeenEmpty, ParState.moveWorker])
            (fun it2 b2 hmem => by
              simp only [ParState.moveWorker, ScanPc.enumerating.injEq] at hmem
              rw [← hmem.1]
              exact fun x hx => hquiet x (List.mem_cons_of_mem _ hx))
            (by simp [workerCount, hpc, ParState.moveWorker, filesOf_cons_dir e rest hdir])
        · by_cases hfull : (batch ++ [(e.info.filePath, e.info)]).length ≥ 100
          · simp only [parStep, ht, if_true, hpc, hdir, hfull, if_false, Bool.false_eq_true]
            have hb := processBatch_countP mimeDb minimumSize p hp
              (batch ++ [(e.info.filePath, e.info)])
              { results := (s.workers t).threadResults,
                fileTypeCache := (s.workers t).fileTypeCache,
                totalProcessedSize := s.totalProcessedSize, mime := s.mime }
            refine scanInv_move maxThreads minimumSize p c s _ h t ht _ rfl rfl
              (by simp [ScanPc.ownQueueSeenEmpty])
              (fun it2 b2 hmem => by
                simp only [ScanPc.enumerating.injEq] at hmem
                rw [← hmem.1]
                exact fun x hx => hquiet x (List.mem_cons_of_mem _ hx)) ?_
            simp only [workerCount, hpc, workerBatch, hb, qualCount_nil,
              filesOf_cons_file e rest hdir, qualCount_append]
            have := qualCount_append minimumSize p [(e.info.filePath, e.info)] (filesOf rest)
            simp only [List.singleton_append] at this
            omega
          · simp only [parStep, ht, if_true, hpc, hdir, hfull, if_false, Bool.false_eq_true]
            refine scanInv_move maxThreads minimumSize p c s _ h t ht _ rfl rfl
              (by simp [ScanPc.ownQueueSeenEmpty, ParState.moveWorker])
              (fun it2 b2 hmem => by
                simp only [ParState.moveWorker, ScanPc.enumerating.injEq] at hmem
                rw [← hmem.1]
                exact fun x hx => hquiet x (List.mem_cons_of_mem _ hx)) ?_
            simp only [workerCount, hpc, ParState.moveWorker,
              filesOf_cons_file e rest hdir, qualCount_append]
            have := qualCount_append minimumSize p [(e.info.filePath, e.info)] (filesOf rest)
            simp only [List.singleton_append] at this
            omega
    | leaving =>
      have hown := h.1 t (by rw [hpc]; rfl)
      simp only [parStep, ht, if_true, hpc]
      refine scanInv_move maxThreads minimumSize p c s _ h t ht _ rfl rfl
        (fun _ => hown) (by simp [ParState.moveWorker]) ?_
      simp only [workerCount, hpc, ParState.moveWorker]
      cases htr : (s.workers t).threadResults with
      | nil => simp
      | cons x xs => simp [List.countP_append]; omega
    | exited =>
      simp only [parStep, ht, if_true, hpc]
      exact h
  · simp only [parStep, ht, if_false]
    exact h

theorem pc_exited_of_allExited (maxThreads : Nat) (s : ParState)
    (h : allExited maxThreads s = true) (t : Nat) (ht : t < maxThreads) :
    (s.workers t).pc = .exited := by
  unfold allExited at h
  rw [List.all_eq_true] at h
  have := h t (List.mem_range.2 ht)
  revert this
  cases (s.workers t).pc <;> simp

theorem parStep_worker_of_allExited (mimeDb : String → String) (maxThreads : Nat)
    (minimumSize : Int) (s : ParState) (t : Nat) (h : allExited maxThreads s = true) :
    parStep mimeDb maxThreads minimumSize s (.worker t) = s := by
  by_cases ht : t < maxThreads
  · simp only [parStep, ht, if_true, pc_exited_of_allExited maxThreads s h t ht]
  · simp only [parStep, ht, if_false]

theorem parStep_worker_events (mimeDb : String → String) (maxThreads : Nat)
    (minimumSize : Int) (s : ParState) (t : Nat) :
    (parStep mimeDb maxThreads minimumSize s (.worker t)).returned = s.returned ∧
    ((parStep mimeDb maxThreads minimumSize s (.worker t)).events = s.events ∨
      ∃ v, (parStep mimeDb maxThreads minimumSize s (.worker t)).events =
        s.events ++ [.scanProgress v]) := by
  by_cases ht : t < maxThreads
  · cases hpc : (s.workers t).pc with
    | loopHead =>
      rcases hpop : (s.workQueues t).pop with ⟨_ | item, q⟩ <;>
        simp [parStep, ht, hpc, hpop, ParState.moveWorker]
    | stealing i =>
      by_cases hi : i < maxThreads
      · by_cases hit : i = t
        · simp [parStep, ht, hpc, hi, hit, ParState.moveWorker]
        · rcases hst : (s.workQueues i).steal with ⟨_ | item, q⟩ <;>
            simp [parStep, ht, hpc, hi, hit, hst, ParState.moveWorker]
      · simp [parStep, ht, hpc, hi, ParState.moveWorker]
    | noWork =>
      by_cases h0 : s.activeThreads - 1 = 0 <;>
        simp [parStep, ht, hpc, h0, ParState.moveWorker]
    | yielding => simp [parStep, ht, hpc, ParState.moveWorker]
    | enumerating it batch =>
      cases it with
      | nil =>
        simp [parStep, ht, hpc, endOfPass]
      | cons e rest =>
        by_cases hdir : e.info.isDir = true
        · by_cases hq : e.info.size ≥ minimumSize <;>
            simp [parStep, ht, hpc, hdir, hq, ParState.moveWorker]
        · by_cases hfull : (batch ++ [(e.info.filePath, e.info)]).length ≥ 100
          · simp only [parStep, ht, if_true, hpc, hdir, hfull, if_false, Bool.false_eq_true]
            simp
          · simp only [parStep, ht, if_true, hpc, hdir, hfull, if_false, Bool.false_eq_true]
            simp [ParState.moveWorker]
    | leaving => simp [parStep, ht, hpc, ParState.moveWorker]
    | exited => simp [parStep, ht, hpc]
  · simp [parStep, ht]

theorem emitsError_append_progress (events : List Event) (v : Int) :
    emitsError (events ++ [.scanProgress v]) = emitsError events := by
  simp [emitsError]

theorem emitsError_append_complete (events : List Event) (files : List FileInfo) :
    emitsError (events ++ [.scanComplete files]) = emitsError events := by
  simp [emitsError]

theorem completedFiles_append_complete (files : List FileInfo) :
    ∀ events : List Event, emitsComplete events = false →
      completedFiles (events ++ [.scanComplete files]) = some files := by
  intro events
  induction events with
  | nil => intro _; rfl
  | cons e es ih =>
    intro h
    cases e with
    | scanComplete f => simp [emitsComplete] at h
    | scanProgress v =>
      simp only [emitsComplete, List.any_cons, Bool.false_or] at h
      simpa [completedFiles] using ih h
    | error m =>
      simp only [emitsComplete, List.any_cons, Bool.false_or] at h
      simpa [completedFiles] using ih h

theorem parStep_joinInv (mimeDb : String → String) (maxThreads : Nat) (minimumSize : Int)
    (s : ParState) (a : ScanAction) (h : JoinInv maxThreads s) :
    JoinInv maxThreads (parStep mimeDb maxThreads minimumSize s a) := by
  cases a with
  | worker t =>
    cases hr : s.returned with
    | true =>
      rw [parStep_worker_of_allExited mimeDb maxThreads minimumSize s t (h.2 hr).2]
      exact h
    | false =>
      obtain ⟨h1, h2⟩ := parStep_worker_events mimeDb maxThreads minimumSize s t
      refine ⟨fun _ => ?_, fun hret => ?_⟩
      · rcases h2 with h2 | ⟨v, h2⟩
        · rw [h2]; exact h.1 hr
        · rw [h2, emitsComplete_append_progress]; exact h.1 hr
      · rw [h1, hr] at hret
        cases hret
  | join =>
    by_cases hc : s.returned = false ∧ allExited maxThreads s = true
    · simp only [parStep, hc, and_self, if_true]
      refine ⟨fun hf => (by cases hf), fun _ => ⟨?_, ?_⟩⟩
      · exact completedFiles_append_complete _ _ (h.1 hc.1)
      · exact hc.2
    · simp only [parStep, hc, if_false]
      exact h

theorem parStep_inv (mimeDb : String → String) (maxThreads : Nat) (minimumSize : Int)
    (p : FileInfo → Bool) (hp : ∀ a b t, p (mkFileInfo a b t) = p (mkFileInfo a b ""))
    (c : Nat) (s : ParState) (a : ScanAction) (h : ScanInv maxThreads minimumSize p c s) :
    ScanInv maxThreads minimumSize p c (parStep mimeDb maxThreads minimumSize s a) := by
  cases a with
  | worker t => exact parStep_worker_inv mimeDb maxThreads minimumSize p hp c s t h
  | join =>
    by_cases hc : s.returned = false ∧ allExited maxThreads s = true
    · simp only [parStep, hc, and_self, if_true]
      obtain ⟨j1, j2, j3, j4⟩ := h
      refine ⟨j1, j2, j3, ?_⟩
      unfold pending at j4 ⊢
      simp only [(sortResults_perm s.results).countP_eq]
      exact j4
    · simp only [parStep, hc, if_false]
      exact h

theorem parRun_inv (mimeDb : String → String) (maxThreads : Nat) (minimumSize : Int)
    (p : FileInfo → Bool) (hp : ∀ a b t, p (mkFileInfo a b t) = p (mkFileInfo a b ""))
    (c : Nat) (schedule : List ScanAction) :
    ∀ s : ParState, ScanInv maxThreads minimumSize p c s → JoinInv maxThreads s →
      ScanInv maxThreads minimumSize p c (parRun mimeDb maxThreads minimumSize schedule s) ∧
      JoinInv maxThreads (parRun mimeDb maxThreads minimumSize schedule s) := by
  induction schedule with
  | nil => intro s h1 h2; exact ⟨h1, h2⟩
  | cons a as ih =>
    intro s h1 h2
    exact ih _ (parStep_inv mimeDb maxThreads minimumSize p hp c s a h1)
      (parStep_joinInv mimeDb maxThreads minimumSize s a h2)

theorem parInit_inv (maxThreads : Nat) (hN : 0 < maxThreads) (minimumSize : Int)
    (p : FileInfo → Bool) (root : List Node) (directory : String) (mime : MimeState)
    (hquiet : quietEntries minimumSize (entriesOfForest directory root)) :
    ScanInv maxThreads minimumSize p
      (qualCount minimumSize p (filesOf (entriesOfForest directory root)))
      (parInit maxThreads root directory mime) := by
  refine ⟨?_, ?_, ?_, ?_⟩
  · intro t h
    simp [parInit, ScanPc.ownQueueSeenEmpty] at h
  · intro t item hitem
    by_cases ht : t = 0
    · subst ht
      simp only [parInit, Function.update_same, WorkQueue.push, List.nil_append,
        List.mem_singleton] at hitem
      rw [hitem]
      exact hquiet
    · simp [parInit, Function.update_noteq ht] at hitem
  · intro t it batch h
    simp [parInit] at h
  · have e := sum_update_add maxThreads 0 hN (fun _ => WorkQueue.mk ([] : List WorkItem))
      ((WorkQueue.mk []).push ⟨directory, root⟩) (queueCount minimumSize p)
    simp only [pending, parInit, List.countP_nil, workerCount, Finset.sum_const_zero]
    simp only [queueCount, List.map_nil, List.sum_nil, Finset.sum_const_zero, WorkQueue.push,
      List.nil_append, List.map_cons, List.sum_cons] at e ⊢
    omega

theorem parInit_joinInv (maxThreads : Nat) (root : List Node) (directory : String)
    (mime : MimeState) : JoinInv maxThreads (parInit maxThreads root directory mime) := by
  refine ⟨fun _ => rfl, fun h => ?_⟩
  simp [parInit] at h

theorem results_countP_of_allExited (maxThreads : Nat) (minimumSize : Int)
    (p : FileInfo → Bool) (c : Nat) (s : ParState)
    (h : ScanInv maxThreads minimumSize p c s) (hex : allExited maxThreads s = true) :
    s.results.countP p = c := by
  obtain ⟨j1, _, _, j4⟩ := h
  have hw : ∑ t ∈ Finset.range maxThreads, workerCount minimumSize p (s.workers t) = 0 := by
    apply Finset.sum_eq_zero
    intro t ht
    simp [workerCount, pc_exited_of_allExited maxThreads s hex t (Finset.mem_range.1 ht)]
  have hq : ∑ t ∈ Finset.range maxThreads, queueCount minimumSize p (s.workQueues t) = 0 := by
    apply Finset.sum_eq_zero
    intro t ht
    have hpc := pc_exited_of_allExited maxThreads s hex t (Finset.mem_range.1 ht)
    have := j1 t (by rw [hpc]; rfl)
    simp [queueCount, this]
  unfold pending at j4
  omega

theorem join_result (mimeDb : String → String) (maxThreads : Nat) (hN : 0 < maxThreads)
    (minimumSize : Int) (root : List Node) (directory : String) (mime : MimeState)
    (hquiet : quietEntries minimumSize (entriesOfForest directory root))
    (schedule : List ScanAction)
    (hex : allExited maxThreads (parRun mimeDb maxThreads minimumSize schedule
      (parInit maxThreads root directory mime)) = true) :
    ∃ files : List FileInfo,
      completedFiles (parStep mimeDb maxThreads minimumSize
        (parRun mimeDb maxThreads minimumSize schedule
          (parInit maxThreads root directory mime)) .join).events = some files ∧
      ∀ p : FileInfo → Bool, (∀ a b t, p (mkFileInfo a b t) = p (mkFileInfo a b "")) →
        files.countP p = qualCount minimumSize p (filesOf (entriesOfForest directory root)) := by
  have hj := (parRun_inv mimeDb maxThreads minimumSize (fun _ => true) (fun _ _ _ => rfl) _
    (schedule ++ [.join]) _
    (parInit_inv maxThreads hN minimumSize _ root directory mime hquiet)
    (parInit_joinInv maxThreads root directory mime)).2
  have hrun : parRun mimeDb maxThreads minimumSize (schedule ++ [.join])
      (parInit maxThreads root directory mime) =
      parStep mimeDb maxThreads minimumSize (parRun mimeDb maxThreads minimumSize schedule
        (parInit maxThreads root directory mime)) .join := by
    simp [parRun, List.foldl_append]
  rw [hrun] at hj
  have hret : (parStep mimeDb maxThreads minimumSize
      (parRun mimeDb maxThreads minimumSize schedule
        (parInit maxThreads root directory mime)) .join).returned = true := by
    cases hr : (parRun mimeDb maxThreads minimumSize schedule
        (parInit maxThreads root directory mime)).returned with
    | true => simp [parStep, hr]
    | false => simp [parStep, hr, hex]
  obtain ⟨hfiles, hex2⟩ := hj.2 hret
  refine ⟨_, hfiles, fun p hp => ?_⟩
  have hinv := (parRun_inv mimeDb maxThreads minimumSize p hp _ (schedule ++ [.join]) _
    (parInit_inv maxThreads hN minimumSize p root directory mime hquiet)
    (parInit_joinInv maxThreads root directory mime)).1
  rw [hrun] at hinv
  exact results_countP_of_allExited maxThreads minimumSize p _ _ hinv hex2

theorem parStep_emitsError (mimeDb : String → String) (maxThreads : Nat) (minimumSize : Int)
    (s : ParState) (a : ScanAction) (h : emitsError s.events = false) :
    emitsError (parStep mimeDb maxThreads minimumSize s a).events = false := by
  cases a with
  | worker t =>
    rcases (parStep_worker_events mimeDb maxThreads minimumSize s t).2 with h2 | ⟨v, h2⟩
    · rw [h2]; exact h
    · rw [h2, emitsError_append_progress]; exact h
  | join =>
    by_cases hc : s.returned = false ∧ allExited maxThreads s = true
    · simp only [parStep, hc, and_self, if_true, emitsError_append_complete]
      exact h
    · simp only [parStep, hc, if_false]
      exact h

theorem parRun_emitsError (mimeDb : String → String) (maxThreads : Nat) (minimumSize : Int)
    (schedule : List ScanAction) :
    ∀ s : ParState, emitsError s.events = false →
      emitsError (parRun mimeDb maxThreads minimumSize schedule s).events = false := by
  induction schedule with
  | nil => intro s h; exact h
  | cons a as ih =>
    intro s h
    exact ih _ (parStep_emitsError mimeDb maxThreads minimumSize s a h)

theorem eq_nil_of_countP_true (l : List FileInfo) (h : l.countP (fun _ => true) = 0) :
    l = [] := by
  cases l with
  | nil => rfl
  | cons x xs => simp at h

/-- C5 (failing input): a root that enumerates no entries, here "/missing" with
`minimumSize` 0. With one worker `startScan` emits `scanProgress(0)` and then
`scanComplete` with the empty list; with any number of workers and under any
schedule it never emits `error`, and once the workers have exited it emits
`scanComplete` with the empty list. -/
theorem missing_root_never_emits_error :
    (startScan (fun _ => "") [] "/missing" 0 ⟨[], []⟩).events =
      [.scanProgress 0, .scanComplete []] ∧
    (∀ (idealThreadCount : Int) (schedule : List ScanAction),
      emitsError (parRun (fun _ => "") (maxThreadsOf idealThreadCount) 0 schedule
        (parInit (maxThreadsOf idealThreadCount) [] "/missing" ⟨[], []⟩)).events = false) ∧
    ∀ (idealThreadCount : Int) (schedule : List ScanAction),
      allExited (maxThreadsOf idealThreadCount)
        (parRun (fun _ => "") (maxThreadsOf idealThreadCount) 0 schedule
          (parInit (maxThreadsOf idealThreadCount) [] "/missing" ⟨[], []⟩)) = true →
      completedFiles (parStep (fun _ => "") (maxThreadsOf idealThreadCount) 0
        (parRun (fun _ => "") (maxThreadsOf idealThreadCount) 0 schedule
          (parInit (maxThreadsOf idealThreadCount) [] "/missing" ⟨[], []⟩)) .join).events
        = some [] := by
  refine ⟨rfl, fun n schedule => parRun_emitsError _ _ _ schedule _ rfl, fun n schedule hex => ?_⟩
  obtain ⟨files, hfiles, hcount⟩ := join_result (fun _ => "") (maxThreadsOf n)
    (maxThreadsOf_pos n) 0 [] "/missing" ⟨[], []⟩
    (fun e he => by simp [entriesOfForest] at he) schedule hex
  have h1 := hcount (fun _ => true) (fun _ _ _ => rfl)
  simp only [entriesOfForest, filesOf, List.filter_nil, List.map_nil, qualCount_nil] at h1
  rw [hfiles, eq_nil_of_countP_true files h1]

end StorageHelper
